import Mathlib

/-!
Shallow embedding of `src/RecursiveDescentParserPanicMode2.py`:
a regex-priority lexer and a recursive-descent parser with panic-mode
error recovery for a small toy language.

Conventions of the embedding:
* Python's `Token` namedtuple becomes the structure `Token`.
* The lexer (`re.finditer` over an ordered alternation of named groups)
  becomes an ordered list of matchers tried left-to-right at each
  position; Python `re` alternation picks the first alternative that
  matches, which is what `tryMatchers` does.  Character classes are the
  ASCII fragments the source uses (`\d`, `[A-Za-z]`, `\s`).
* The parser's mutable state (`current_token`, the generator, and the
  `panic_mode` flag) becomes the structure `PState`; `next(self.lexer,
  None)` becomes `advance`.
* Python exceptions become the error type `PErr` threaded through
  `Except`; `StopIteration` (from `next` with no default on an empty
  stream), `SyntaxError`, `AttributeError` (attribute access on `None`)
  and `TypeError` (constructing the 4-field `Token` namedtuple with two
  arguments, as the dead fold body of `expression` would) are modelled
  explicitly.
* The mutually recursive grammar procedures take a fuel argument; the
  distinguished error `PErr.fuelout` is returned when it runs out, and
  the termination theorem proves the fuel `parse` supplies is always
  sufficient, i.e. the Python recursion terminates on every finite
  token sequence.
-/

/-- Python `Token = namedtuple('Token', ['type', 'value', 'line_number', 'column'])`. -/
structure Token where
  type : String
  value : String
  line_number : Nat
  column : Nat
deriving DecidableEq, Repr

/-! ## Lexer -/

/-- ASCII fragment of Python regex `\d`. -/
def isDigitC (c : Char) : Bool := '0' ≤ c && c ≤ '9'

/-- `[A-Za-z]`. -/
def isLetterC (c : Char) : Bool := ('A' ≤ c && c ≤ 'Z') || ('a' ≤ c && c ≤ 'z')

/-- ASCII fragment of Python regex `\s` (space, tab, newline, CR, VT, FF). -/
def isSpaceC (c : Char) : Bool :=
  c = ' ' || c = '\t' || c = '\n' || c = '\r' || c = '\x0b' || c = '\x0c'

/-- Greedy span of a character class: `(longest matching run, remainder)`. -/
def spanC (p : Char → Bool) (cs : List Char) : List Char × List Char :=
  (cs.takeWhile p, cs.dropWhile p)

/-- Drop an exact literal from the front of the input, returning the rest. -/
def stripLit : List Char → List Char → Option (List Char)
  | [], cs => some cs
  | _, [] => none
  | l :: ls, c :: cs => if c = l then stripLit ls cs else none

/-- A matcher returns the matched text and the remaining input. -/
def matchLit (lit : List Char) (cs : List Char) : Option (List Char × List Char) :=
  match stripLit lit cs with
  | some rest => some (lit, rest)
  | none => none

/-- `[A-Za-z][A-Za-z0-9]*` (the `ID` pattern). -/
def matchID : List Char → Option (List Char × List Char)
  | [] => none
  | c :: cs =>
    if isLetterC c then
      some (c :: (spanC (fun d => isLetterC d || isDigitC d) cs).1,
            (spanC (fun d => isLetterC d || isDigitC d) cs).2)
    else none

/-- `([Ee][+-]?\d+)`: the optional exponent part of the `FLOAT` pattern.
Returns the exponent text and the rest when it matches. -/
def matchExpPart : List Char → Option (List Char × List Char)
  | [] => none
  | e :: r4 =>
    if e = 'E' || e = 'e' then
      match r4 with
      | s :: r5 =>
        if s = '+' || s = '-' then
          match spanC isDigitC r5 with
          | ([], _) => none
          | (d3, r6) => some (e :: s :: d3, r6)
        else
          match spanC isDigitC r4 with
          | ([], _) => none
          | (d3, r6) => some (e :: d3, r6)
      | [] => none
    else none

/-- `\d+\.\d+([Ee][+-]?\d+)?`, the unsigned body of the `FLOAT` pattern. -/
def matchFloatBody (cs : List Char) : Option (List Char × List Char) :=
  match spanC isDigitC cs with
  | ([], _) => none
  | (d1, r1) =>
    match r1 with
    | [] => none
    | c1 :: r2 =>
      if c1 = '.' then
        match spanC isDigitC r2 with
        | ([], _) => none
        | (d2, r3) =>
          match matchExpPart r3 with
          | some (ex, r6) => some (d1 ++ c1 :: d2 ++ ex, r6)
          | none => some (d1 ++ c1 :: d2, r3)
      else none

/-- `[+-]?\d+\.\d+([Ee][+-]?\d+)?` (the `FLOAT` pattern). -/
def matchFLOAT : List Char → Option (List Char × List Char)
  | [] => none
  | c :: cs =>
    if c = '+' || c = '-' then
      match matchFloatBody cs with
      | some (txt, rest) => some (c :: txt, rest)
      | none => none
    else matchFloatBody (c :: cs)

/-- `[+-]?\d+` (the `INT` pattern). -/
def matchINT : List Char → Option (List Char × List Char)
  | [] => none
  | c :: cs =>
    if c = '+' || c = '-' then
      match spanC isDigitC cs with
      | ([], _) => none
      | (ds, rest) => some (c :: ds, rest)
    else
      match spanC isDigitC (c :: cs) with
      | ([], _) => none
      | (ds, rest) => some (ds, rest)

/-- `"[^"]*"` (the `STRING_LITERAL` pattern); the match includes both quotes. -/
def matchStringLit : List Char → Option (List Char × List Char)
  | [] => none
  | c :: cs =>
    if c = '"' then
      match (spanC (fun d => !(d = '"')) cs) with
      | (body, q :: rest) => if q = '"' then some ('"' :: body ++ ['"'], rest) else none
      | (_, []) => none
    else none

/-- `[+\-*/]\s+` (the `OPERATOR` pattern): an operator character followed by
whitespace, the whitespace being part of the match. -/
def matchOPERATOR : List Char → Option (List Char × List Char)
  | [] => none
  | c :: cs =>
    if c = '+' || c = '-' || c = '*' || c = '/' then
      match spanC isSpaceC cs with
      | ([], _) => none
      | (ws, rest) => some (c :: ws, rest)
    else none

/-- `\s+` (the `WHITESPACE` pattern). -/
def matchWS (cs : List Char) : Option (List Char × List Char) :=
  match spanC isSpaceC cs with
  | ([], _) => none
  | (ws, rest) => some (ws, rest)

/-- `token_specification`, in source order: the combined pattern
`'|'.join(f'(?P<{name}>{pattern})' ...)` tries these alternatives
left-to-right at each position. -/
def tokenMatchers : List (String × (List Char → Option (List Char × List Char))) :=
  [("BEGIN", matchLit "BEGIN".data),
   ("END", matchLit "END".data),
   ("PRINT", matchLit "PRINT".data),
   ("FOR", matchLit "FOR".data),
   ("TO", matchLit "TO".data),
   ("INTEGER", matchLit "INTEGER".data),
   ("REAL", matchLit "REAL".data),
   ("STRING", matchLit "STRING".data),
   ("ASSIGN", matchLit ":=".data),
   ("COMMA", matchLit ",".data),
   ("ID", matchID),
   ("FLOAT", matchFLOAT),
   ("INT", matchINT),
   ("STRING_LITERAL", matchStringLit),
   ("OPERATOR", matchOPERATOR),
   ("WHITESPACE", matchWS)]

/-- First matcher in the list that matches wins (Python alternation). -/
def tryMatchers : List (String × (List Char → Option (List Char × List Char))) →
    List Char → Option (String × List Char × List Char)
  | [], _ => none
  | (name, m) :: ms, cs =>
    match m cs with
    | some (txt, rest) => some (name, txt, rest)
    | none => tryMatchers ms cs

/-- The body of `lexer(input_code)`: `re.finditer` scans left to right; at
each position the first alternative that matches wins; if none matches the
scan advances one character (and no match iteration happens).  Per match
iteration the source yields the token (unless the group is `WHITESPACE`)
at the current `(line_number, column)`, then adds `len(value)` to `column`,
and at the end of the iteration does `line_number += 1; column = 1`.
The fuel argument only instruments the recursion; every step consumes at
least one character (`tryMatchers_progress`), so fuel `cs.length` is exact
and `lexGo_fuel_irrelevant` shows any fuel `≥ cs.length` gives the same
result. -/
def lexGo : Nat → List Char → Nat → Nat → List Token
  | 0, _, _, _ => []
  | Nat.succ fuel, cs, line, col =>
    match tryMatchers tokenMatchers cs with
    | some (name, txt, rest) =>
      (if name ≠ "WHITESPACE" then [⟨name, String.mk txt, line, col⟩] else []) ++
        lexGo fuel rest (line + 1) 1
    | none =>
      match cs with
      | [] => []
      | _ :: cs2 => lexGo fuel cs2 line col

/-- `lexer(input_code)`, as the list of tokens the generator yields. -/
def lexer (input : String) : List Token := lexGo input.data.length input.data 1 1

/-- The sequence of `re.finditer` matches (group name and matched text),
including the `WHITESPACE` matches that yield no token. -/
def matGo : Nat → List Char → List (String × String)
  | 0, _ => []
  | Nat.succ fuel, cs =>
    match tryMatchers tokenMatchers cs with
    | some (name, txt, rest) => (name, String.mk txt) :: matGo fuel rest
    | none =>
      match cs with
      | [] => []
      | _ :: cs2 => matGo fuel cs2

/-- All `re.finditer` matches of the combined token pattern on `cs`. -/
def lexMatches (cs : List Char) : List (String × String) := matGo cs.length cs

/-! ## AST and parser state -/

/-- Python's `Node` tree.  A child list may hold `Node` objects, raw `Token`
objects (e.g. `Node('Value', [cur_token])`), or Python `None` (the
`expression_node` of a `FOR`-style assignment), hence the three
constructors. -/
inductive PTree where
  | node (ty : String) (children : List PTree) (value : Option String) : PTree
  | tok (t : Token) : PTree
  | null : PTree
deriving Repr

/-- Errors a parse can surface, plus the fuel sentinel of the embedding. -/
inductive PErr where
  | synErr (msg : String)
  | stopIter
  | attrErr
  | typeErr
  | fuelout
deriving DecidableEq, Repr

/-- The parser's mutable state: `self.current_token` and the unread remainder
of the lexer generator, plus `self.panic_mode`. -/
structure PState where
  current : Option Token
  rest : List Token
  panic : Bool
deriving DecidableEq, Repr

abbrev PResult (α : Type) := Except PErr (α × PState)

/-- `self.current_token = next(self.lexer, None)`. -/
def advance (st : PState) : PState :=
  { st with current := st.rest.head?, rest := st.rest.tail }

/-- Number of unread tokens (including the one in `current`). -/
def PState.size (st : PState) : Nat :=
  (match st.current with | some _ => 1 | none => 0) + st.rest.length

/-- The unread token stream, `current` first. -/
def pstream (st : PState) : List Token :=
  (match st.current with | some t => [t] | none => []) ++ st.rest

/-- The skip loop inside `consume` while in panic mode:
`while self.current_token and self.current_token.type != expected_type:
self.current_token = next(self.lexer, None)`. -/
def skipWhileNot (expected : String) : Option Token → List Token → Option Token × List Token
  | none, rest => (none, rest)
  | some t, [] => if t.type = expected then (some t, []) else (none, [])
  | some t, r :: rs =>
    if t.type = expected then (some t, r :: rs) else skipWhileNot expected (some r) rs

/-- A generic recovery skip loop:
`while self.current_token and self.current_token.type not in stop: advance`. -/
def skipWhileNotIn (stop : List String) : Option Token → List Token → Option Token × List Token
  | none, rest => (none, rest)
  | some t, [] => if t.type ∈ stop then (some t, []) else (none, [])
  | some t, r :: rs =>
    if t.type ∈ stop then (some t, r :: rs) else skipWhileNotIn stop (some r) rs

/-- `Parser.consume(expected_type)`.  In panic mode it skips to the
synchronization token; if found it is consumed and panic mode is cleared,
otherwise the cursor is simply advanced (and panic mode is left as is).
In normal mode a match advances; a mismatch with a current token sets
panic mode and advances; at end of input `END` is tolerated and anything
else raises `SyntaxError`. -/
def consume (expected : String) (st : PState) : Except PErr PState :=
  if st.panic then
    match skipWhileNot expected st.current st.rest with
    | (some t, r2) =>
      if t.type = expected then
        .ok (advance { current := some t, rest := r2, panic := false })
      else
        .ok (advance { current := some t, rest := r2, panic := st.panic })
    | (none, r2) => .ok (advance { current := none, rest := r2, panic := st.panic })
  else
    match st.current with
    | some t =>
      if t.type = expected then .ok (advance st)
      else .ok (advance { st with panic := true })
    | none =>
      if expected = "END" then .ok st
      else .error (.synErr ("Unexpected end of input. Expected " ++ expected))

def termStarters : List String := ["ID", "INT", "FLOAT", "STRING_LITERAL"]

def opChars : List String := ["+", "-", "*", "/"]

def statementStarters : List String := ["PRINT", "INTEGER", "REAL", "STRING", "ID", "FOR"]

/-- `Parser.term()`: a leaf for the current token if it can start a term,
otherwise a fatal SyntaxError; `self.current_token.type` on `None` is an
AttributeError. -/
def term (st : PState) : PResult PTree :=
  match st.current with
  | none => .error .attrErr
  | some t =>
    if t.type ∈ termStarters then
      match consume t.type st with
      | .error e => .error e
      | .ok st2 => .ok (PTree.node "Value" [PTree.tok t] none, st2)
    else .error (.synErr ("Unexpected token: " ++ t.type))

/-- `Parser.expression()`.  The loop guard compares
`self.current_token.type` with the characters `'+' '-' '*' '/'`, while
operator tokens carry the type `'OPERATOR'`; when the guard does fire (on a
synthetic token) the body either returns the `ErrorRecoveryExpression`
leaf, or reaches `Token('ID', value=...)`, which raises `TypeError`
(the 4-field namedtuple is given 2 arguments), so the loop never performs a
second iteration and the textual fold is unreachable. -/
def expression (st : PState) : PResult PTree :=
  match term st with
  | .error e => .error e
  | .ok (leftTerm, st1) =>
    match st1.current with
    | none => .ok (leftTerm, st1)
    | some t =>
      if st1.panic = false ∧ t.type ∈ opChars then
        match consume "OPERATOR" st1 with
        | .error e => .error e
        | .ok st2 =>
          match st2.current with
          | none => .error .attrErr
          | some t2 =>
            if t2.type ∈ termStarters then
              match term st2 with
              | .error e => .error e
              | .ok _ => .error .typeErr
            else
              .ok (PTree.node "ErrorRecoveryExpression" [] none, { st2 with panic := true })
      else .ok (leftTerm, st1)

/-- Python `None` versus a `Token` in a child list. -/
def optTok : Option Token → PTree
  | some t => PTree.tok t
  | none => PTree.null

/-- Python `f'{v}'` on an `Optional[str]`. -/
def fmtOpt : Option String → String
  | some s => s
  | none => "None"

/-- The `Node('Assignment', [variable_node, expression_node])` plus the
appended `Node('Value', [variable_token])` built by `Parser.assignment`. -/
def mkAssign (t : Token) (expr : PTree) : PTree :=
  PTree.node "Assignment"
    [PTree.node "Variable" [] (some t.value), expr, PTree.node "Value" [PTree.tok t] none] none

mutual

/-- The `while` loop of `Parser.statement_list`, with the children built
so far as accumulator. -/
def statement_list_loop : Nat → List PTree → PState → Except PErr (List PTree × PState)
  | 0, _, _ => .error .fuelout
  | Nat.succ fuel, acc, st =>
    match st.current with
    | none => .ok (acc, st)
    | some t =>
      if st.panic = false ∧ t.type ∈ statementStarters then
        match statement fuel st with
        | .error e => .error e
        | .ok (s, st1) => statement_list_loop fuel (acc ++ [s]) st1
      else .ok (acc, st)
termination_by structural fuel => fuel


/-- `Parser.statement_list()`. -/
def statement_list : Nat → PState → PResult PTree
  | 0, _ => .error .fuelout
  | Nat.succ fuel, st =>
    match statement_list_loop fuel [] st with
    | .error e => .error e
    | .ok (cs, st1) => .ok (PTree.node "Statements" cs none, st1)
termination_by structural fuel => fuel


/-- `Parser.statement()`. -/
def statement : Nat → PState → PResult PTree
  | 0, _ => .error .fuelout
  | Nat.succ fuel, st =>
    if st.panic then
      let cr := skipWhileNotIn (statementStarters ++ ["END"]) st.current st.rest
      .ok (PTree.node "ErrorRecoveryStatement" [] none,
           { current := cr.1, rest := cr.2, panic := st.panic })
    else
      match st.current with
      | none => .error .attrErr
      | some t =>
        if t.type = "PRINT" then
          match consume "PRINT" st with
          | .error e => .error e
          | .ok st1 =>
            let strLit := PTree.node "StringLiteral" [PTree.node "Value" [optTok st1.current] none] none
            match consume "STRING_LITERAL" st1 with
            | .error e => .error e
            | .ok st2 => .ok (PTree.node "PrintStatement" [strLit] none, st2)
        else if t.type = "INTEGER" ∨ t.type = "REAL" ∨ t.type = "STRING" then
          match var_declaration fuel st with
          | .error e => .error e
          | .ok (vd, st1) => .ok (PTree.node "VarDeclaration" [vd] none, st1)
        else if t.type = "ID" then
          match assignment fuel st with
          | .error e => .error e
          | .ok (asg, st1) => .ok (PTree.node "Assignment" [asg] none, st1)
        else if t.type = "FOR" then
          match for_loop fuel st with
          | .error e => .error e
          | .ok ((fl, sv, ev), st1) =>
            .ok (PTree.node ("START : " ++ fmtOpt sv ++ "\nEND : " ++ fmtOpt ev) [fl] none, st1)
        else .error (.synErr ("Unexpected token: " ++ t.type))
termination_by structural fuel => fuel


/-- `Parser.var_declaration()` up to its first `consume('ID')`; the
`COMMA` loop is `var_decl_loop`. -/
def var_declaration : Nat → PState → PResult PTree
  | 0, _ => .error .fuelout
  | Nat.succ fuel, st =>
    match st.current with
    | none => .error .attrErr
    | some t =>
      match consume t.type st with
      | .error e => .error e
      | .ok st1 =>
        match st1.current with
        | none => .error .attrErr
        | some t1 =>
          match consume "ID" st1 with
          | .error e => .error e
          | .ok st2 =>
            match var_decl_loop fuel t.type [PTree.node t.type [] (some t1.value)] st2 with
            | .error e => .error e
            | .ok (ns, st3) => .ok (PTree.node "VarDeclaration" ns none, st3)


/-- The `while self.current_token.type == 'COMMA'` loop of
`Parser.var_declaration`. -/
def var_decl_loop : Nat → String → List PTree → PState → Except PErr (List PTree × PState)
  | 0, _, _, _ => .error .fuelout
  | Nat.succ fuel, varType, acc, st =>
    match st.current with
    | none => .error .attrErr
    | some t =>
      if t.type = "COMMA" then
        match consume "COMMA" st with
        | .error e => .error e
        | .ok st1 =>
          match st1.current with
          | none => .error .attrErr
          | some t1 =>
            match consume "ID" st1 with
            | .error e => .error e
            | .ok st2 => var_decl_loop fuel varType (acc ++ [PTree.node varType [] (some t1.value)]) st2
      else .ok (acc, st)
termination_by structural fuel => fuel


/-- `Parser.assignment()`. -/
def assignment : Nat → PState → PResult PTree
  | 0, _ => .error .fuelout
  | Nat.succ fuel, st =>
    match assignment_loop fuel [] st with
    | .error e => .error e
    | .ok (ns, st1) => .ok (PTree.node "Assignments" ns none, st1)


/-- The `while` loop of `Parser.assignment`. -/
def assignment_loop : Nat → List PTree → PState → Except PErr (List PTree × PState)
  | 0, _, _ => .error .fuelout
  | Nat.succ fuel, acc, st =>
    match st.current with
    | none => .ok (acc, st)
    | some t =>
      if st.panic = false ∧ t.type = "ID" then
        match consume "ID" st with
        | .error e => .error e
        | .ok st1 =>
          match st1.current with
          | none => .error .attrErr
          | some t1 =>
            if t1.type = "ASSIGN" then
              match consume "ASSIGN" st1 with
              | .error e => .error e
              | .ok st2 =>
                match expression st2 with
                | .error e => .error e
                | .ok (ex, st3) => assignment_loop fuel (acc ++ [mkAssign t ex]) st3
            else
              assignment_loop fuel (acc ++ [mkAssign t PTree.null]) st1
      else .ok (acc, st)
termination_by structural fuel => fuel


/-- `Parser.for_loop()`, returning the node and the raw `start`/`end`
token texts used for the diagnostic label. -/
def for_loop : Nat → PState → PResult (PTree × Option String × Option String)
  | 0, _ => .error .fuelout
  | Nat.succ fuel, st =>
    match consume "FOR" st with
    | .error e => .error e
    | .ok st1 =>
      if st1.panic then
        let cr := skipWhileNotIn ["ID", "END"] st1.current st1.rest
        .ok ((PTree.node "ErrorRecoveryForLoop" [] none, none, none),
             { current := cr.1, rest := cr.2, panic := st1.panic })
      else
        match st1.current with
        | none => .error .attrErr
        | some t =>
          if t.type = "ID" then
            match consume "ID" st1 with
            | .error e => .error e
            | .ok st2 =>
              match consume "ASSIGN" st2 with
              | .error e => .error e
              | .ok st3 =>
                match expression st3 with
                | .error e => .error e
                | .ok (_, st4) =>
                  match consume "TO" st4 with
                  | .error e => .error e
                  | .ok st5 =>
                    match st5.current with
                    | none => .error .attrErr
                    | some endTok =>
                      match expression st5 with
                      | .error e => .error e
                      | .ok (_, st6) =>
                        match statement_list fuel st6 with
                        | .error e => .error e
                        | .ok (stmts, st7) =>
                          match consume "END" st7 with
                          | .error e => .error e
                          | .ok st8 =>
                            .ok ((PTree.node "ForLoop" [stmts] none,
                                  some t.value, some endTok.value), st8)
          else
            let cr := skipWhileNotIn ["ID", "END"] st1.current st1.rest
            .ok ((PTree.node "ErrorRecoveryForLoop" [] none, none, none),
                 { current := cr.1, rest := cr.2, panic := st1.panic })
termination_by structural fuel => fuel

end

/-- `Parser.program()`. -/
def program : Nat → PState → PResult PTree
  | 0, _ => .error .fuelout
  | Nat.succ fuel, st =>
    match consume "BEGIN" st with
    | .error e => .error e
    | .ok st1 =>
      match statement_list fuel st1 with
      | .error e => .error e
      | .ok (stmts, st2) =>
        let cr := skipWhileNotIn ["END", "BEGIN"] st2.current st2.rest
        let st3 : PState := { current := cr.1, rest := cr.2, panic := st2.panic }
        match st3.current with
        | none => .ok (PTree.node "Program" [stmts] none, st3)
        | some t =>
          if t.type = "END" then
            match consume "END" st3 with
            | .error e => .error e
            | .ok st4 => .ok (PTree.node "Program" [stmts] none, st4)
          else .ok (PTree.node "Program" [stmts] none, st3)

/-- `Parser.parse()` with the given fuel: `self.current_token =
next(self.lexer)` raises `StopIteration` on an empty token stream,
then `self.program()` runs. -/
def parseFuel (fuel : Nat) (tokens : List Token) : PResult PTree :=
  match tokens with
  | [] => .error .stopIter
  | t :: ts => program fuel { current := some t, rest := ts, panic := false }

/-- `Parser.parse()`; the fuel `3 * n + 7` is proved sufficient for any
token sequence of length `n`. -/
def parse (tokens : List Token) : PResult PTree :=
  parseFuel (3 * tokens.length + 7) tokens

/-! ## Size bookkeeping for the termination argument -/

def osize : Option Token → Nat
  | some _ => 1
  | none => 0

def declChain : List String → List Token
  | [] => []
  | nm :: ns => ⟨"COMMA", ",", 1, 1⟩ :: ⟨"ID", nm, 1, 1⟩ :: declChain ns

def declTokens (ty n0 : String) (ns : List String) : List Token :=
  ⟨"BEGIN", "BEGIN", 1, 1⟩ :: ⟨ty, ty, 1, 1⟩ :: ⟨"ID", n0, 1, 1⟩ ::
    (declChain ns ++ [⟨"END", "END", 1, 1⟩])

mutual

/-- Does any node or token in the tree carry the given value string? -/
def hasValueS (v : String) : PTree → Bool
  | .node _ cs val => decide (val = some v) || hasValueLS v cs
  | .tok t => decide (t.value = v)
  | .null => false

def hasValueLS (v : String) : List PTree → Bool
  | [] => false
  | c :: cs => hasValueS v c || hasValueLS v cs

end

theorem dropWhile_length_le (p : Char → Bool) (l : List Char) :
    (l.dropWhile p).length ≤ l.length := by
  induction l with
  | nil => simp [List.dropWhile]
  | cons c cs ih =>
    by_cases h : p c
    · simp only [List.dropWhile, h, List.length_cons]
      exact Nat.le_succ_of_le ih
    · simp [List.dropWhile, h]

theorem takeWhile_ne_nil_dropWhile_lt (p : Char → Bool) (cs : List Char)
    (h : cs.takeWhile p ≠ []) : (cs.dropWhile p).length < cs.length := by
  cases cs with
  | nil => simp [List.takeWhile] at h
  | cons c cs2 =>
    by_cases hc : p c
    · simp only [List.dropWhile, hc, List.length_cons]
      exact Nat.lt_succ_of_le (dropWhile_length_le p cs2)
    · simp [List.takeWhile, hc] at h

theorem spanC_fst_length (p : Char → Bool) (cs d r : List Char)
    (h : spanC p cs = (d, r)) (hne : d ≠ []) : r.length < cs.length := by
  unfold spanC at h
  injection h with e1 e2
  rw [← e2]
  exact takeWhile_ne_nil_dropWhile_lt p cs (by rw [e1]; exact hne)

theorem spanC_snd_le (p : Char → Bool) (cs d r : List Char)
    (h : spanC p cs = (d, r)) : r.length ≤ cs.length := by
  unfold spanC at h
  injection h with e1 e2
  rw [← e2]
  exact dropWhile_length_le p cs

theorem stripLit_append (l : List Char) : ∀ cs r, stripLit l cs = some r → cs = l ++ r := by
  induction l with
  | nil => intro cs r h; simpa [stripLit] using h
  | cons x xs ih =>
    intro cs r h
    cases cs with
    | nil => simp [stripLit] at h
    | cons c cs2 =>
      by_cases hc : c = x
      · subst hc
        simp only [stripLit, if_pos rfl] at h
        simpa using ih cs2 r h
      · simp [stripLit, hc] at h

theorem stripLit_self (l : List Char) (r : List Char) : stripLit l (l ++ r) = some r := by
  induction l with
  | nil => simp [stripLit]
  | cons x xs ih => simp [stripLit, ih]

theorem matchLit_progress (lit : List Char) (hne : lit ≠ []) (cs txt rest : List Char)
    (h : matchLit lit cs = some (txt, rest)) : rest.length < cs.length := by
  unfold matchLit at h
  cases hs : stripLit lit cs with
  | none => rw [hs] at h; cases h
  | some r =>
    rw [hs] at h
    simp only [Option.some.injEq, Prod.mk.injEq] at h
    obtain ⟨h3, h4⟩ := h
    subst h4
    have hcs := stripLit_append lit cs r hs
    subst hcs
    cases lit with
    | nil => exact absurd rfl hne
    | cons a as =>
      simp only [List.length_append, List.length_cons]
      omega

theorem matchExpPart_le (r3 ex r6 : List Char)
    (h : matchExpPart r3 = some (ex, r6)) : r6.length ≤ r3.length := by
  cases r3 with
  | nil => simp [matchExpPart] at h
  | cons e r4 =>
    simp only [matchExpPart] at h
    by_cases he : (e = 'E' || e = 'e') = true
    · rw [if_pos he] at h
      cases r4 with
      | nil => cases h
      | cons s r5 =>
        simp only [] at h
        by_cases hs : (s = '+' || s = '-') = true
        · rw [if_pos hs] at h
          cases hd : spanC isDigitC r5 with
          | mk d3 r6x =>
            rw [hd] at h
            have hle := spanC_snd_le isDigitC r5 d3 r6x hd
            cases d3 with
            | nil => cases h
            | cons x xs =>
              simp only [Option.some.injEq, Prod.mk.injEq] at h
              obtain ⟨h3, h4⟩ := h
              subst h4
              simp only [List.length_cons]
              omega
        · rw [if_neg hs] at h
          cases hd : spanC isDigitC (s :: r5) with
          | mk d3 r6x =>
            rw [hd] at h
            have hle := spanC_snd_le isDigitC (s :: r5) d3 r6x hd
            cases d3 with
            | nil => cases h
            | cons x xs =>
              simp only [Option.some.injEq, Prod.mk.injEq] at h
              obtain ⟨h3, h4⟩ := h
              subst h4
              simp only [List.length_cons] at hle ⊢
              omega
    · rw [if_neg he] at h
      cases h

theorem matchFloatBody_progress (cs txt rest : List Char)
    (h : matchFloatBody cs = some (txt, rest)) : rest.length < cs.length := by
  unfold matchFloatBody at h
  cases hd1 : spanC isDigitC cs with
  | mk d1 r1 =>
    rw [hd1] at h
    cases d1 with
    | nil => cases h
    | cons a as =>
      have hr1 : r1.length < cs.length := spanC_fst_length isDigitC cs (a :: as) r1 hd1 (by simp)
      cases r1 with
      | nil => cases h
      | cons c1 r2 =>
        simp only [] at h
        by_cases hc1 : c1 = '.'
        · rw [if_pos hc1] at h
          cases hd2 : spanC isDigitC r2 with
          | mk d2 r3 =>
            rw [hd2] at h
            have hr3 : r3.length ≤ r2.length := spanC_snd_le isDigitC r2 d2 r3 hd2
            cases d2 with
            | nil => cases h
            | cons b bs =>
              simp only [] at h
              cases hexp : matchExpPart r3 with
              | some exr6 =>
                cases exr6 with
                | mk ex r6 =>
                  rw [hexp] at h
                  simp only [Option.some.injEq, Prod.mk.injEq] at h
                  obtain ⟨h3, h4⟩ := h
                  subst h4
                  have hle := matchExpPart_le r3 ex r6 hexp
                  simp only [List.length_cons] at hr1
                  omega
              | none =>
                rw [hexp] at h
                simp only [Option.some.injEq, Prod.mk.injEq] at h
                obtain ⟨h3, h4⟩ := h
                subst h4
                simp only [List.length_cons] at hr1
                omega
        · rw [if_neg hc1] at h
          cases h

theorem matchID_progress (cs txt rest : List Char)
    (h : matchID cs = some (txt, rest)) : rest.length < cs.length := by
  cases cs with
  | nil => simp [matchID] at h
  | cons c cs2 =>
    simp only [matchID] at h
    by_cases hc : isLetterC c = true
    · rw [if_pos hc] at h
      simp only [Option.some.injEq, Prod.mk.injEq] at h
      obtain ⟨h3, h4⟩ := h
      subst h4
      have := dropWhile_length_le (fun d => isLetterC d || isDigitC d) cs2
      simp only [spanC, List.length_cons]
      omega
    · rw [if_neg hc] at h
      cases h

theorem matchFLOAT_progress (cs txt rest : List Char)
    (h : matchFLOAT cs = some (txt, rest)) : rest.length < cs.length := by
  cases cs with
  | nil => simp [matchFLOAT] at h
  | cons c cs2 =>
    simp only [matchFLOAT] at h
    by_cases hc : (c = '+' || c = '-') = true
    · rw [if_pos hc] at h
      cases hb : matchFloatBody cs2 with
      | none => rw [hb] at h; cases h
      | some p =>
        cases p with
        | mk t2 r2 =>
          rw [hb] at h
          simp only [Option.some.injEq, Prod.mk.injEq] at h
          obtain ⟨h3, h4⟩ := h
          subst h4
          have := matchFloatBody_progress cs2 t2 r2 hb
          simp only [List.length_cons]
          omega
    · rw [if_neg hc] at h
      exact matchFloatBody_progress (c :: cs2) txt rest h

theorem matchINT_progress (cs txt rest : List Char)
    (h : matchINT cs = some (txt, rest)) : rest.length < cs.length := by
  cases cs with
  | nil => simp [matchINT] at h
  | cons c cs2 =>
    simp only [matchINT] at h
    by_cases hc : (c = '+' || c = '-') = true
    · rw [if_pos hc] at h
      cases hd : spanC isDigitC cs2 with
      | mk ds r =>
        rw [hd] at h
        cases ds with
        | nil => cases h
        | cons a as =>
          simp only [Option.some.injEq, Prod.mk.injEq] at h
          obtain ⟨h3, h4⟩ := h
          subst h4
          have := spanC_snd_le isDigitC cs2 (a :: as) r hd
          simp only [List.length_cons]
          omega
    · rw [if_neg hc] at h
      cases hd : spanC isDigitC (c :: cs2) with
      | mk ds r =>
        rw [hd] at h
        cases ds with
        | nil => cases h
        | cons a as =>
          simp only [Option.some.injEq, Prod.mk.injEq] at h
          obtain ⟨h3, h4⟩ := h
          subst h4
          exact spanC_fst_length isDigitC (c :: cs2) (a :: as) r hd (by simp)

theorem matchStringLit_progress (cs txt rest : List Char)
    (h : matchStringLit cs = some (txt, rest)) : rest.length < cs.length := by
  cases cs with
  | nil => simp [matchStringLit] at h
  | cons c cs2 =>
    simp only [matchStringLit] at h
    by_cases hc : c = '"'
    · rw [if_pos hc] at h
      cases hs : spanC (fun d => !(d = '"')) cs2 with
      | mk body r =>
        rw [hs] at h
        cases r with
        | nil => cases h
        | cons q r2 =>
          simp only [] at h
          by_cases hq : q = '"'
          · rw [if_pos hq] at h
            simp only [Option.some.injEq, Prod.mk.injEq] at h
            obtain ⟨h3, h4⟩ := h
            subst h4
            have := spanC_snd_le (fun d => !(d = '"')) cs2 body (q :: r2) hs
            simp only [List.length_cons] at this ⊢
            omega
          · rw [if_neg hq] at h
            cases h
    · rw [if_neg hc] at h
      cases h

theorem matchOPERATOR_progress (cs txt rest : List Char)
    (h : matchOPERATOR cs = some (txt, rest)) : rest.length < cs.length := by
  cases cs with
  | nil => simp [matchOPERATOR] at h
  | cons c cs2 =>
    simp only [matchOPERATOR] at h
    by_cases hc : (c = '+' || c = '-' || c = '*' || c = '/') = true
    · rw [if_pos hc] at h
      cases hs : spanC isSpaceC cs2 with
      | mk ws r =>
        rw [hs] at h
        cases ws with
        | nil => cases h
        | cons w wsx =>
          simp only [Option.some.injEq, Prod.mk.injEq] at h
          obtain ⟨h3, h4⟩ := h
          subst h4
          have := spanC_snd_le isSpaceC cs2 (w :: wsx) r hs
          simp only [List.length_cons]
          omega
    · rw [if_neg hc] at h
      cases h

theorem matchWS_progress (cs txt rest : List Char)
    (h : matchWS cs = some (txt, rest)) : rest.length < cs.length := by
  unfold matchWS at h
  cases hs : spanC isSpaceC cs with
  | mk ws r =>
    rw [hs] at h
    cases ws with
    | nil => cases h
    | cons w wsx =>
      simp only [Option.some.injEq, Prod.mk.injEq] at h
      obtain ⟨h3, h4⟩ := h
      subst h4
      exact spanC_fst_length isSpaceC cs (w :: wsx) r hs (by simp)

theorem tryMatchers_progress_gen
    (ms : List (String × (List Char → Option (List Char × List Char))))
    (hms : ∀ pr ∈ ms, ∀ cs txt rest, pr.2 cs = some (txt, rest) → rest.length < cs.length) :
    ∀ cs name txt rest, tryMatchers ms cs = some (name, txt, rest) → rest.length < cs.length := by
  induction ms with
  | nil => intro cs name txt rest h; cases h
  | cons pr ms ih =>
    intro cs name txt rest h
    cases pr with
    | mk nm m =>
      unfold tryMatchers at h
      cases hm : m cs with
      | some p =>
        cases p with
        | mk t r =>
          rw [hm] at h
          simp only [Option.some.injEq, Prod.mk.injEq] at h
          obtain ⟨h1, h2, h3⟩ := h
          subst h3
          exact hms (nm, m) (List.mem_cons_self _ _) cs t r hm
      | none =>
        rw [hm] at h
        exact ih (fun q hq => hms q (List.mem_cons_of_mem _ hq)) cs name txt rest h

/-- Every matcher in `token_specification` consumes at least one character
when it matches, so each `re.finditer` match advances the scan. -/
theorem tryMatchers_progress (cs : List Char) (name : String) (txt rest : List Char)
    (h : tryMatchers tokenMatchers cs = some (name, txt, rest)) : rest.length < cs.length := by
  refine tryMatchers_progress_gen tokenMatchers ?_ cs name txt rest h
  intro pr hpr
  simp only [tokenMatchers, List.mem_cons, List.not_mem_nil, or_false] at hpr
  rcases hpr with rfl | rfl | rfl | rfl | rfl | rfl | rfl | rfl | rfl | rfl | rfl | rfl | rfl | rfl | rfl | rfl
  · exact matchLit_progress _ (by decide)
  · exact matchLit_progress _ (by decide)
  · exact matchLit_progress _ (by decide)
  · exact matchLit_progress _ (by decide)
  · exact matchLit_progress _ (by decide)
  · exact matchLit_progress _ (by decide)
  · exact matchLit_progress _ (by decide)
  · exact matchLit_progress _ (by decide)
  · exact matchLit_progress _ (by decide)
  · exact matchLit_progress _ (by decide)
  · exact matchID_progress
  · exact matchFLOAT_progress
  · exact matchINT_progress
  · exact matchStringLit_progress
  · exact matchOPERATOR_progress
  · exact matchWS_progress

theorem lexGo_fuel_irrelevant : ∀ f1 : Nat, ∀ f2 cs line col, cs.length ≤ f1 → cs.length ≤ f2 →
    lexGo f1 cs line col = lexGo f2 cs line col := by
  intro f1
  induction f1 using Nat.strong_induction_on with
  | _ f1 ih =>
    intro f2 cs line col h1 h2
    cases cs with
    | nil =>
      have hnone : tryMatchers tokenMatchers ([] : List Char) = none := rfl
      cases f1 <;> cases f2 <;> simp [lexGo, hnone]
    | cons c cs2 =>
      cases f1 with
      | zero => simp at h1
      | succ g1 =>
        cases f2 with
        | zero => simp at h2
        | succ g2 =>
          simp only [lexGo]
          cases hm : tryMatchers tokenMatchers (c :: cs2) with
          | some p =>
            obtain ⟨name, txt, rest⟩ := p
            have hp := tryMatchers_progress (c :: cs2) name txt rest hm
            simp only [List.length_cons] at hp h1 h2
            simp only []
            rw [ih g1 (by omega) g2 rest (line + 1) 1 (by omega) (by omega)]
          | none =>
            simp only [List.length_cons] at h1 h2
            exact ih g1 (by omega) g2 cs2 line col (by omega) (by omega)

theorem PState.size_eq (st : PState) : st.size = osize st.current + st.rest.length := by
  cases h : st.current <;> simp [PState.size, osize, h]

theorem advance_size_le (st : PState) : (advance st).size ≤ st.size := by
  cases hr : st.rest with
  | nil => cases hc : st.current <;> simp [advance, PState.size, hr, hc]
  | cons r rs =>
    cases hc : st.current <;> (simp [advance, PState.size, hr, hc]; try omega)

theorem advance_size_lt (st : PState) (t : Token) (h : st.current = some t) :
    (advance st).size < st.size := by
  cases hr : st.rest with
  | nil => simp [advance, PState.size, hr, h]
  | cons r rs => simp [advance, PState.size, hr, h]

theorem advance_panic (st : PState) : (advance st).panic = st.panic := rfl

theorem skipWhileNot_size (e : String) :
    ∀ rest cur, osize (skipWhileNot e cur rest).1 + (skipWhileNot e cur rest).2.length ≤
      osize cur + rest.length := by
  intro rest
  induction rest with
  | nil =>
    intro cur
    cases cur with
    | none => simp [skipWhileNot]
    | some t =>
      by_cases ht : t.type = e <;> simp [skipWhileNot, ht, osize]
  | cons r rs ih =>
    intro cur
    cases cur with
    | none => simp [skipWhileNot]
    | some t =>
      by_cases ht : t.type = e
      · simp [skipWhileNot, ht]
      · simp only [skipWhileNot, if_neg ht]
        have := ih (some r)
        simp only [osize, List.length_cons] at this ⊢
        omega

theorem skipWhileNot_stop (e : String) :
    ∀ rest cur t, (skipWhileNot e cur rest).1 = some t → t.type = e := by
  intro rest
  induction rest with
  | nil =>
    intro cur t h
    cases cur with
    | none => simp [skipWhileNot] at h
    | some t0 =>
      by_cases ht : t0.type = e
      · simp only [skipWhileNot, if_pos ht, Option.some.injEq] at h
        rw [← h]; exact ht
      · simp [skipWhileNot, ht] at h
  | cons r rs ih =>
    intro cur t h
    cases cur with
    | none => simp [skipWhileNot] at h
    | some t0 =>
      by_cases ht : t0.type = e
      · simp only [skipWhileNot, if_pos ht, Option.some.injEq] at h
        rw [← h]; exact ht
      · simp only [skipWhileNot, if_neg ht] at h
        exact ih (some r) t h

theorem skipWhileNot_found_iff (e : String) :
    ∀ rest cur, (skipWhileNot e cur rest).1.isSome = true ↔
      (cur.isSome = true ∧ e ∈ (cur.toList ++ rest).map Token.type) := by
  intro rest
  induction rest with
  | nil =>
    intro cur
    cases cur with
    | none => simp [skipWhileNot]
    | some t =>
      by_cases ht : t.type = e
      · simp only [skipWhileNot, if_pos ht, Option.isSome_some, Option.toList_some,
          List.singleton_append, List.map_cons, List.map_nil, List.mem_singleton, true_iff,
          true_and]
        exact ht.symm
      · simp only [skipWhileNot, if_neg ht, Option.isSome_none, Option.toList_some,
          List.singleton_append, List.map_cons, List.map_nil, List.mem_singleton,
          Option.isSome_some, true_and, Bool.false_eq_true, false_iff]
        exact fun h2 => ht h2.symm
  | cons r rs ih =>
    intro cur
    cases cur with
    | none => simp [skipWhileNot]
    | some t =>
      by_cases ht : t.type = e
      · simp only [skipWhileNot, if_pos ht, Option.isSome_some, Option.toList_some,
          List.singleton_append, List.map_cons, List.mem_cons, true_iff, true_and]
        exact Or.inl ht.symm
      · simp only [skipWhileNot, if_neg ht]
        rw [ih (some r)]
        simp only [Option.isSome_some, true_and, Option.toList_some, List.singleton_append,
          List.map_cons, List.mem_cons]
        constructor
        · intro h; exact Or.inr h
        · rintro (h | h)
          · exact absurd h.symm ht
          · exact h

theorem skipWhileNot_not_found (e : String) :
    ∀ rest cur, (skipWhileNot e cur rest).1 = none → cur.isSome = true →
      (skipWhileNot e cur rest).2 = [] := by
  intro rest
  induction rest with
  | nil =>
    intro cur h hs
    cases cur with
    | none => simp at hs
    | some t =>
      by_cases ht : t.type = e
      · simp [skipWhileNot, ht] at h
      · simp [skipWhileNot, ht]
  | cons r rs ih =>
    intro cur h hs
    cases cur with
    | none => simp at hs
    | some t =>
      by_cases ht : t.type = e
      · simp [skipWhileNot, ht] at h
      · simp only [skipWhileNot, if_neg ht] at h ⊢
        exact ih (some r) h rfl

/-- In panic mode, `consume` always returns normally: it lands on the result
of the skip loop, clears the panic flag exactly when the skip found the
expected kind, and then advances. -/
theorem consume_panic_eq (e : String) (st : PState) (hp : st.panic = true) :
    consume e st = .ok (advance
      { current := (skipWhileNot e st.current st.rest).1,
        rest := (skipWhileNot e st.current st.rest).2,
        panic := !(skipWhileNot e st.current st.rest).1.isSome }) := by
  unfold consume
  rw [if_pos hp]
  cases hsk : skipWhileNot e st.current st.rest with
  | mk c2 r2 =>
    cases c2 with
    | some t =>
      simp only []
      have ht : t.type = e := skipWhileNot_stop e st.rest st.current t (by rw [hsk])
      rw [if_pos ht]
      simp
    | none =>
      simp only []
      rw [hp]
      simp

theorem consume_ne_fuelout (e : String) (st : PState) :
    consume e st ≠ .error .fuelout := by
  by_cases hp : st.panic = true
  · rw [consume_panic_eq e st hp]
    simp
  · unfold consume
    rw [if_neg hp]
    cases hc : st.current with
    | some t => by_cases ht : t.type = e <;> simp [ht]
    | none => by_cases he : e = "END" <;> simp [he]

theorem consume_ok_size_le (e : String) (st st2 : PState)
    (h : consume e st = .ok st2) : st2.size ≤ st.size := by
  by_cases hp : st.panic = true
  · rw [consume_panic_eq e st hp] at h
    simp only [Except.ok.injEq] at h
    subst h
    refine le_trans (advance_size_le _) ?_
    rw [PState.size_eq, PState.size_eq st]
    exact skipWhileNot_size e st.rest st.current
  · unfold consume at h
    rw [if_neg hp] at h
    cases hc : st.current with
    | some t =>
      rw [hc] at h
      simp only [] at h
      by_cases ht : t.type = e
      · rw [if_pos ht] at h
        simp only [Except.ok.injEq] at h
        subst h
        exact advance_size_le st
      · rw [if_neg ht] at h
        simp only [Except.ok.injEq] at h
        subst h
        refine le_trans (advance_size_le _) ?_
        rw [PState.size_eq, PState.size_eq st]
        simp [hc]
    | none =>
      rw [hc] at h
      simp only [] at h
      by_cases he : e = "END"
      · rw [if_pos he] at h
        simp only [Except.ok.injEq] at h
        subst h
        exact le_refl _
      · rw [if_neg he] at h
        cases h

theorem consume_ok_size_lt (e : String) (st : PState) (t0 : Token) (st2 : PState)
    (hc0 : st.current = some t0) (h : consume e st = .ok st2) : st2.size < st.size := by
  by_cases hp : st.panic = true
  · rw [consume_panic_eq e st hp] at h
    simp only [Except.ok.injEq] at h
    subst h
    have hskip := skipWhileNot_size e st.rest st.current
    cases hc : (skipWhileNot e st.current st.rest).1 with
    | some t =>
      refine lt_of_lt_of_le (advance_size_lt _ t rfl) ?_
      rw [PState.size_eq, PState.size_eq st]
      simpa [hc] using hskip
    | none =>
      have hnil := skipWhileNot_not_found e st.rest st.current hc (by rw [hc0]; rfl)
      rw [hnil]
      have h0 : ∀ b : Bool, (advance (PState.mk none [] b)).size = 0 := fun _ => rfl
      rw [h0]
      rw [PState.size_eq st, hc0]
      simp only [osize]
      omega
  · unfold consume at h
    rw [if_neg hp, hc0] at h
    simp only [] at h
    by_cases ht : t0.type = e
    · rw [if_pos ht] at h
      simp only [Except.ok.injEq] at h
      subst h
      exact advance_size_lt st t0 hc0
    · rw [if_neg ht] at h
      simp only [Except.ok.injEq] at h
      subst h
      have hsz : ({ st with panic := true } : PState).size = st.size := rfl
      have h2 : (advance { st with panic := true }).size <
          ({ st with panic := true } : PState).size := advance_size_lt _ t0 (by simp [hc0])
      rw [hsz] at h2
      rw [← hc0]
      exact h2

/-- A matching `consume` in normal mode is exactly an `advance`. -/
theorem consume_match_eq (e : String) (st : PState) (t : Token)
    (hp : st.panic = false) (hc : st.current = some t) (ht : t.type = e) :
    consume e st = .ok (advance st) := by
  unfold consume
  rw [hp, hc]
  simp [ht]

theorem skipWhileNot_immediate (e : String) (t : Token) (rest : List Token)
    (ht : t.type = e) : skipWhileNot e (some t) rest = (some t, rest) := by
  cases rest <;> simp [skipWhileNot, ht]

theorem term_ne_fuelout (st : PState) : term st ≠ .error .fuelout := by
  unfold term
  cases hc : st.current with
  | none => simp
  | some t =>
    simp only []
    by_cases ht : t.type ∈ termStarters
    · rw [if_pos ht]
      cases hcon : consume t.type st with
      | error e =>
        have := consume_ne_fuelout t.type st
        rw [hcon] at this
        simpa using fun he => this (by rw [he])
      | ok st2 => simp
    · rw [if_neg ht]
      simp

theorem term_ok_size_lt (st : PState) (r : PTree) (st2 : PState)
    (h : term st = .ok (r, st2)) : st2.size < st.size := by
  unfold term at h
  cases hc : st.current with
  | none => rw [hc] at h; cases h
  | some t =>
    rw [hc] at h
    simp only [] at h
    by_cases ht : t.type ∈ termStarters
    · rw [if_pos ht] at h
      cases hcon : consume t.type st with
      | error e => rw [hcon] at h; cases h
      | ok st3 =>
        rw [hcon] at h
        simp only [Except.ok.injEq, Prod.mk.injEq] at h
        obtain ⟨h1, h2⟩ := h
        subst h2
        exact consume_ok_size_lt t.type st t st3 hc hcon
    · rw [if_neg ht] at h
      cases h

/-- A successful `term` consumes exactly the current token: the new state's
cursor is the head of the old `rest`. -/
theorem term_ok_state (st : PState) (r : PTree) (st2 : PState)
    (h : term st = .ok (r, st2)) :
    st2.current = st.rest.head? ∧ st2.rest = st.rest.tail := by
  unfold term at h
  cases hc : st.current with
  | none => rw [hc] at h; cases h
  | some t =>
    rw [hc] at h
    simp only [] at h
    by_cases ht : t.type ∈ termStarters
    · rw [if_pos ht] at h
      cases hcon : consume t.type st with
      | error e => rw [hcon] at h; cases h
      | ok st3 =>
        rw [hcon] at h
        simp only [Except.ok.injEq, Prod.mk.injEq] at h
        obtain ⟨h1, h2⟩ := h
        subst h2
        by_cases hp : st.panic = true
        · rw [consume_panic_eq t.type st hp] at hcon
          rw [hc, skipWhileNot_immediate t.type t st.rest rfl] at hcon
          simp only [Except.ok.injEq] at hcon
          rw [← hcon]
          exact ⟨rfl, rfl⟩
        · rw [consume_match_eq t.type st t (by simpa using hp) hc rfl] at hcon
          simp only [Except.ok.injEq] at hcon
          rw [← hcon]
          exact ⟨rfl, rfl⟩
    · rw [if_neg ht] at h
      cases h

theorem expression_ne_fuelout (st : PState) : expression st ≠ .error .fuelout := by
  unfold expression
  cases hterm : term st with
  | error e =>
    have := term_ne_fuelout st
    rw [hterm] at this
    simpa using fun he => this (by rw [he])
  | ok p =>
    obtain ⟨leftTerm, st1⟩ := p
    simp only []
    cases hc : st1.current with
    | none => simp
    | some t =>
      simp only []
      by_cases hg : st1.panic = false ∧ t.type ∈ opChars
      · rw [if_pos hg]
        cases hcon : consume "OPERATOR" st1 with
        | error e =>
          have := consume_ne_fuelout "OPERATOR" st1
          rw [hcon] at this
          simpa using fun he => this (by rw [he])
        | ok st2 =>
          simp only []
          cases hc2 : st2.current with
          | none => simp
          | some t2 =>
            simp only []
            by_cases ht2 : t2.type ∈ termStarters
            · rw [if_pos ht2]
              cases hterm2 : term st2 with
              | error e =>
                have := term_ne_fuelout st2
                rw [hterm2] at this
                simpa using fun he => this (by rw [he])
              | ok q => simp
            · rw [if_neg ht2]
              simp
      · rw [if_neg hg]
        simp

theorem expression_ok_size_lt (st : PState) (r : PTree) (st2 : PState)
    (h : expression st = .ok (r, st2)) : st2.size < st.size := by
  unfold expression at h
  cases hterm : term st with
  | error e => rw [hterm] at h; cases h
  | ok p =>
    obtain ⟨leftTerm, st1⟩ := p
    have hlt1 : st1.size < st.size := term_ok_size_lt st leftTerm st1 hterm
    rw [hterm] at h
    simp only [] at h
    cases hc : st1.current with
    | none =>
      rw [hc] at h
      simp only [Except.ok.injEq, Prod.mk.injEq] at h
      obtain ⟨h1, h2⟩ := h
      subst h2
      exact hlt1
    | some t =>
      rw [hc] at h
      simp only [] at h
      by_cases hg : st1.panic = false ∧ t.type ∈ opChars
      · rw [if_pos hg] at h
        cases hcon : consume "OPERATOR" st1 with
        | error e => rw [hcon] at h; cases h
        | ok st3 =>
          rw [hcon] at h
          have hlt3 : st3.size < st1.size := consume_ok_size_lt "OPERATOR" st1 t st3 hc hcon
          simp only [] at h
          cases hc2 : st3.current with
          | none => rw [hc2] at h; cases h
          | some t2 =>
            rw [hc2] at h
            simp only [] at h
            by_cases ht2 : t2.type ∈ termStarters
            · rw [if_pos ht2] at h
              cases hterm2 : term st3 with
              | error e => rw [hterm2] at h; cases h
              | ok q => rw [hterm2] at h; cases h
            · rw [if_neg ht2] at h
              simp only [Except.ok.injEq, Prod.mk.injEq] at h
              obtain ⟨h1, h2⟩ := h
              subst h2
              have hsz : ({ current := some t2, rest := st3.rest, panic := true } : PState).size
                  = st3.size := by
                rw [PState.size_eq, PState.size_eq, hc2]
              omega
      · rw [if_neg hg] at h
        simp only [Except.ok.injEq, Prod.mk.injEq] at h
        obtain ⟨h1, h2⟩ := h
        subst h2
        exact hlt1

theorem skipWhileNotIn_size (stop : List String) :
    ∀ rest cur, osize (skipWhileNotIn stop cur rest).1 + (skipWhileNotIn stop cur rest).2.length ≤
      osize cur + rest.length := by
  intro rest
  induction rest with
  | nil =>
    intro cur
    cases cur with
    | none => simp [skipWhileNotIn]
    | some t =>
      by_cases ht : t.type ∈ stop <;> simp [skipWhileNotIn, ht, osize]
  | cons r rs ih =>
    intro cur
    cases cur with
    | none => simp [skipWhileNotIn]
    | some t =>
      by_cases ht : t.type ∈ stop
      · simp [skipWhileNotIn, ht]
      · simp only [skipWhileNotIn, if_neg ht]
        have := ih (some r)
        simp only [osize, List.length_cons] at this ⊢
        omega

theorem err_ne_fuelout {α : Type} (x : Except PErr α) (hx : x ≠ .error .fuelout) (e : PErr)
    (h : x = .error e) : e ≠ .fuelout := fun he => hx (by rw [h, he])

theorem error_propagates {e : PErr} (hne : e ≠ .fuelout) {α : Type} :
    (Except.error e : Except PErr α) ≠ .error .fuelout := by
  intro h
  injection h with h2
  exact hne h2

theorem ok_ne_fuelout {α : Type} (a : α) :
    (Except.ok a : Except PErr α) ≠ .error .fuelout := by simp

theorem ok_state_eq {α : Type} (r0 : α) (st0 : PState) :
    ∀ r st2, (Except.ok (r0, st0) : Except PErr (α × PState)) = .ok (r, st2) → st2 = st0 := by
  intro r st2 h
  simp only [Except.ok.injEq, Prod.mk.injEq] at h
  exact h.2.symm

/-- Fuel sufficiency for every grammar procedure: with fuel at least a small
linear function of the number of unread tokens, no procedure ever runs out of
fuel, and every procedure leaves at most as many unread tokens as it found
(strictly fewer for a statement parsed in normal mode).  This is the
termination argument for the Python recursion: every loop iteration and
every recursive call strictly consumes input. -/
theorem parser_fuel : ∀ f : Nat,
    (∀ acc st, 3 * st.size + 4 ≤ f →
      statement_list_loop f acc st ≠ .error .fuelout ∧
      ∀ r st2, statement_list_loop f acc st = .ok (r, st2) → st2.size ≤ st.size) ∧
    (∀ st, 3 * st.size + 5 ≤ f →
      statement_list f st ≠ .error .fuelout ∧
      ∀ r st2, statement_list f st = .ok (r, st2) → st2.size ≤ st.size) ∧
    (∀ st t, st.panic = false → st.current = some t → t.type ∈ statementStarters →
      3 * st.size + 3 ≤ f →
      statement f st ≠ .error .fuelout ∧
      ∀ r st2, statement f st = .ok (r, st2) → st2.size < st.size) ∧
    (∀ st, st.size + 2 ≤ f →
      var_declaration f st ≠ .error .fuelout ∧
      ∀ r st2, var_declaration f st = .ok (r, st2) → st2.size < st.size) ∧
    (∀ ty acc st, st.size + 1 ≤ f →
      var_decl_loop f ty acc st ≠ .error .fuelout ∧
      ∀ r st2, var_decl_loop f ty acc st = .ok (r, st2) → st2.size ≤ st.size) ∧
    (∀ st, st.size + 2 ≤ f →
      assignment f st ≠ .error .fuelout ∧
      (∀ r st2, assignment f st = .ok (r, st2) → st2.size ≤ st.size) ∧
      (∀ t r st2, st.panic = false → st.current = some t → t.type = "ID" →
        assignment f st = .ok (r, st2) → st2.size < st.size)) ∧
    (∀ acc st, st.size + 1 ≤ f →
      assignment_loop f acc st ≠ .error .fuelout ∧
      (∀ r st2, assignment_loop f acc st = .ok (r, st2) → st2.size ≤ st.size) ∧
      (∀ t r st2, st.panic = false → st.current = some t → t.type = "ID" →
        assignment_loop f acc st = .ok (r, st2) → st2.size < st.size)) ∧
    (∀ st, 3 * st.size + 2 ≤ f →
      for_loop f st ≠ .error .fuelout ∧
      (∀ r st2, for_loop f st = .ok (r, st2) → st2.size ≤ st.size) ∧
      (∀ t r st2, st.current = some t →
        for_loop f st = .ok (r, st2) → st2.size < st.size)) := by
  intro f
  induction f with
  | zero =>
    refine ⟨?_, ?_, ?_, ?_, ?_, ?_, ?_, ?_⟩ <;> intros <;> omega
  | succ f ih =>
    obtain ⟨ihSLL, ihSL, ihST, ihVD, ihVDL, ihASG, ihASGL, ihFL⟩ := ih
    have hSLL : ∀ acc st, 3 * st.size + 4 ≤ f + 1 →
        statement_list_loop (f + 1) acc st ≠ .error .fuelout ∧
        ∀ r st2, statement_list_loop (f + 1) acc st = .ok (r, st2) → st2.size ≤ st.size := by
      intro acc st hreq
      simp only [statement_list_loop]
      cases hc : st.current with
      | none =>
        simp only []
        exact ⟨ok_ne_fuelout _, fun r st2 h => by rw [ok_state_eq _ _ r st2 h]⟩
      | some t =>
        simp only []
        by_cases hg : st.panic = false ∧ t.type ∈ statementStarters
        · rw [if_pos hg]
          cases hstm : statement f st with
          | error e =>
            simp only []
            refine ⟨error_propagates (err_ne_fuelout _ ?_ e hstm), fun r st2 h => by simp at h⟩
            exact (ihST st t hg.1 hc hg.2 (by omega)).1
          | ok p =>
            obtain ⟨s, st1⟩ := p
            simp only []
            have hlt : st1.size < st.size := (ihST st t hg.1 hc hg.2 (by omega)).2 s st1 hstm
            obtain ⟨h1, h2⟩ := ihSLL (acc ++ [s]) st1 (by omega)
            exact ⟨h1, fun r st2 h => le_trans (h2 r st2 h) (le_of_lt hlt)⟩
        · rw [if_neg hg]
          exact ⟨ok_ne_fuelout _, fun r st2 h => by rw [ok_state_eq _ _ r st2 h]⟩
    have hSL : ∀ st, 3 * st.size + 5 ≤ f + 1 →
        statement_list (f + 1) st ≠ .error .fuelout ∧
        ∀ r st2, statement_list (f + 1) st = .ok (r, st2) → st2.size ≤ st.size := by
      intro st hreq
      simp only [statement_list]
      cases hloop : statement_list_loop f [] st with
      | error e =>
        simp only []
        refine ⟨error_propagates (err_ne_fuelout _ ?_ e hloop), fun r st2 h => by simp at h⟩
        exact (ihSLL [] st (by omega)).1
      | ok p =>
        obtain ⟨cs, st1⟩ := p
        simp only []
        have hle := (ihSLL [] st (by omega)).2 cs st1 hloop
        exact ⟨ok_ne_fuelout _, fun r st2 h => by rw [ok_state_eq _ _ r st2 h]; exact hle⟩
    have hVDL : ∀ ty acc st, st.size + 1 ≤ f + 1 →
        var_decl_loop (f + 1) ty acc st ≠ .error .fuelout ∧
        ∀ r st2, var_decl_loop (f + 1) ty acc st = .ok (r, st2) → st2.size ≤ st.size := by
      intro ty acc st hreq
      simp only [var_decl_loop]
      cases hc : st.current with
      | none =>
        simp only []
        exact ⟨error_propagates (by simp), fun r st2 h => by simp at h⟩
      | some t =>
        simp only []
        by_cases ht : t.type = "COMMA"
        · rw [if_pos ht]
          cases hcon : consume "COMMA" st with
          | error e =>
            simp only []
            exact ⟨error_propagates (err_ne_fuelout _ (consume_ne_fuelout _ _) e hcon),
                   fun r st2 h => by simp at h⟩
          | ok st1 =>
            simp only []
            have hlt1 : st1.size < st.size := consume_ok_size_lt "COMMA" st t st1 hc hcon
            cases hc1 : st1.current with
            | none =>
              simp only []
              exact ⟨error_propagates (by simp), fun r st2 h => by simp at h⟩
            | some t1 =>
              simp only []
              cases hcon2 : consume "ID" st1 with
              | error e =>
                simp only []
                exact ⟨error_propagates (err_ne_fuelout _ (consume_ne_fuelout _ _) e hcon2),
                       fun r st2 h => by simp at h⟩
              | ok st2x =>
                simp only []
                have hle2 : st2x.size ≤ st1.size := consume_ok_size_le "ID" st1 st2x hcon2
                obtain ⟨h1, h2⟩ := ihVDL ty (acc ++ [PTree.node ty [] (some t1.value)]) st2x
                  (by omega)
                exact ⟨h1, fun r st2 h => le_trans (h2 r st2 h) (by omega)⟩
        · rw [if_neg ht]
          exact ⟨ok_ne_fuelout _, fun r st2 h => by rw [ok_state_eq _ _ r st2 h]⟩
    have hVD : ∀ st, st.size + 2 ≤ f + 1 →
        var_declaration (f + 1) st ≠ .error .fuelout ∧
        ∀ r st2, var_declaration (f + 1) st = .ok (r, st2) → st2.size < st.size := by
      intro st hreq
      simp only [var_declaration]
      cases hc : st.current with
      | none =>
        simp only []
        exact ⟨error_propagates (by simp), fun r st2 h => by simp at h⟩
      | some t =>
        simp only []
        cases hcon : consume t.type st with
        | error e =>
          simp only []
          exact ⟨error_propagates (err_ne_fuelout _ (consume_ne_fuelout _ _) e hcon),
                 fun r st2 h => by simp at h⟩
        | ok st1 =>
          simp only []
          have hlt1 : st1.size < st.size := consume_ok_size_lt t.type st t st1 hc hcon
          cases hc1 : st1.current with
          | none =>
            simp only []
            exact ⟨error_propagates (by simp), fun r st2 h => by simp at h⟩
          | some t1 =>
            simp only []
            cases hcon2 : consume "ID" st1 with
            | error e =>
              simp only []
              exact ⟨error_propagates (err_ne_fuelout _ (consume_ne_fuelout _ _) e hcon2),
                     fun r st2 h => by simp at h⟩
            | ok st2x =>
              simp only []
              have hle2 : st2x.size ≤ st1.size := consume_ok_size_le "ID" st1 st2x hcon2
              cases hloop : var_decl_loop f t.type [PTree.node t.type [] (some t1.value)] st2x with
              | error e =>
                simp only []
                refine ⟨error_propagates (err_ne_fuelout _ ?_ e hloop),
                  fun r st2 h => by simp at h⟩
                exact (ihVDL t.type [PTree.node t.type [] (some t1.value)] st2x (by omega)).1
              | ok p =>
                obtain ⟨ns, st3⟩ := p
                simp only []
                have hle3 := (ihVDL t.type [PTree.node t.type [] (some t1.value)] st2x
                  (by omega)).2 ns st3 hloop
                exact ⟨ok_ne_fuelout _, fun r st2 h => by
                  rw [ok_state_eq _ _ r st2 h]; omega⟩
    have hASGL : ∀ acc st, st.size + 1 ≤ f + 1 →
        assignment_loop (f + 1) acc st ≠ .error .fuelout ∧
        (∀ r st2, assignment_loop (f + 1) acc st = .ok (r, st2) → st2.size ≤ st.size) ∧
        (∀ t r st2, st.panic = false → st.current = some t → t.type = "ID" →
          assignment_loop (f + 1) acc st = .ok (r, st2) → st2.size < st.size) := by
      intro acc st hreq
      simp only [assignment_loop]
      cases hc : st.current with
      | none =>
        simp only []
        refine ⟨ok_ne_fuelout _, fun r st2 h => by rw [ok_state_eq _ _ r st2 h],
                fun t r st2 hp hcur ht h => ?_⟩
        simp at hcur
      | some t =>
        simp only []
        by_cases hg : st.panic = false ∧ t.type = "ID"
        · rw [if_pos hg]
          rw [consume_match_eq "ID" st t hg.1 hc hg.2]
          simp only []
          have hlt1 : (advance st).size < st.size := advance_size_lt st t hc
          cases hc1 : (advance st).current with
          | none =>
            simp only []
            exact ⟨error_propagates (by simp), fun r st2 h => by simp at h,
                   fun t0 r st2 hp hcur ht0 h => by simp at h⟩
          | some t1 =>
            simp only []
            by_cases ht1 : t1.type = "ASSIGN"
            · rw [if_pos ht1]
              cases hcon2 : consume "ASSIGN" (advance st) with
              | error e =>
                simp only []
                exact ⟨error_propagates (err_ne_fuelout _ (consume_ne_fuelout _ _) e hcon2),
                  fun r st2 h => by simp at h, fun t0 r st2 hp hcur ht0 h => by simp at h⟩
              | ok st2x =>
                simp only []
                have hle2 : st2x.size ≤ (advance st).size :=
                  consume_ok_size_le "ASSIGN" (advance st) st2x hcon2
                cases hexp : expression st2x with
                | error e =>
                  simp only []
                  exact ⟨error_propagates (err_ne_fuelout _ (expression_ne_fuelout _) e hexp),
                    fun r st2 h => by simp at h, fun t0 r st2 hp hcur ht0 h => by simp at h⟩
                | ok p =>
                  obtain ⟨ex, st3⟩ := p
                  simp only []
                  have hlt3 : st3.size < st2x.size := expression_ok_size_lt st2x ex st3 hexp
                  obtain ⟨h1, h2, h3⟩ := ihASGL (acc ++ [mkAssign t ex]) st3 (by omega)
                  refine ⟨h1, fun r st2 h => le_trans (h2 r st2 h) (by omega),
                          fun t0 r st2 hp hcur ht0 h => lt_of_le_of_lt (h2 r st2 h) (by omega)⟩
            · rw [if_neg ht1]
              obtain ⟨h1, h2, h3⟩ := ihASGL (acc ++ [mkAssign t PTree.null]) (advance st)
                (by omega)
              refine ⟨h1, fun r st2 h => le_trans (h2 r st2 h) (by omega),
                      fun t0 r st2 hp hcur ht0 h => lt_of_le_of_lt (h2 r st2 h) (by omega)⟩
        · rw [if_neg hg]
          refine ⟨ok_ne_fuelout _, fun r st2 h => by rw [ok_state_eq _ _ r st2 h],
                  fun t0 r st2 hp hcur ht0 h => ?_⟩
          injection hcur with hcur2
          subst hcur2
          exact absurd ⟨hp, ht0⟩ hg
    have hASG : ∀ st, st.size + 2 ≤ f + 1 →
        assignment (f + 1) st ≠ .error .fuelout ∧
        (∀ r st2, assignment (f + 1) st = .ok (r, st2) → st2.size ≤ st.size) ∧
        (∀ t r st2, st.panic = false → st.current = some t → t.type = "ID" →
          assignment (f + 1) st = .ok (r, st2) → st2.size < st.size) := by
      intro st hreq
      simp only [assignment]
      cases hloop : assignment_loop f [] st with
      | error e =>
        simp only []
        refine ⟨error_propagates (err_ne_fuelout _ ?_ e hloop), fun r st2 h => by simp at h,
                fun t r st2 hp hcur ht h => by simp at h⟩
        exact (ihASGL [] st (by omega)).1
      | ok p =>
        obtain ⟨ns, st1⟩ := p
        simp only []
        obtain ⟨h1, h2, h3⟩ := ihASGL [] st (by omega)
        refine ⟨ok_ne_fuelout _, fun r st2 h => by
            rw [ok_state_eq _ _ r st2 h]; exact h2 ns st1 hloop,
          fun t r st2 hp hcur ht h => by
            rw [ok_state_eq _ _ r st2 h]; exact h3 t ns st1 hp hcur ht hloop⟩
    have hFL : ∀ st, 3 * st.size + 2 ≤ f + 1 →
        for_loop (f + 1) st ≠ .error .fuelout ∧
        (∀ r st2, for_loop (f + 1) st = .ok (r, st2) → st2.size ≤ st.size) ∧
        (∀ t r st2, st.current = some t →
          for_loop (f + 1) st = .ok (r, st2) → st2.size < st.size) := by
      intro st hreq
      simp only [for_loop]
      cases hcon : consume "FOR" st with
      | error e =>
        simp only []
        exact ⟨error_propagates (err_ne_fuelout _ (consume_ne_fuelout _ _) e hcon),
               fun r st2 h => by simp at h, fun t r st2 hcur h => by simp at h⟩
      | ok st1 =>
        simp only []
        have hle1 : st1.size ≤ st.size := consume_ok_size_le "FOR" st st1 hcon
        have hlt1 : ∀ t0, st.current = some t0 → st1.size < st.size :=
          fun t0 hcur => consume_ok_size_lt "FOR" st t0 st1 hcur hcon
        have hskX := skipWhileNotIn_size ["ID", "END"] st1.rest st1.current
        have hskST : (PState.mk (skipWhileNotIn ["ID", "END"] st1.current st1.rest).1
            (skipWhileNotIn ["ID", "END"] st1.current st1.rest).2 st1.panic).size ≤ st1.size := by
          rw [PState.size_eq, PState.size_eq st1]
          exact hskX
        by_cases hp1 : st1.panic = true
        · rw [if_pos hp1]
          refine ⟨ok_ne_fuelout _, fun r st2 h => ?_, fun t0 r st2 hcur h => ?_⟩
          · rw [ok_state_eq _ _ r st2 h]
            omega
          · rw [ok_state_eq _ _ r st2 h]
            have := hlt1 t0 hcur
            omega
        · rw [if_neg hp1]
          cases hc1 : st1.current with
          | none =>
            simp only []
            exact ⟨error_propagates (by simp), fun r st2 h => by simp at h,
                   fun t0 r st2 hcur h => by simp at h⟩
          | some t =>
            simp only []
            by_cases ht : t.type = "ID"
            · rw [if_pos ht]
              rw [consume_match_eq "ID" st1 t (by simpa using hp1) hc1 ht]
              simp only []
              have hlt2 : (advance st1).size < st1.size := advance_size_lt st1 t hc1
              cases hcon3 : consume "ASSIGN" (advance st1) with
              | error e =>
                simp only []
                exact ⟨error_propagates (err_ne_fuelout _ (consume_ne_fuelout _ _) e hcon3),
                  fun r st2 h => by simp at h, fun t0 r st2 hcur h => by simp at h⟩
              | ok st3 =>
                simp only []
                have hle3 : st3.size ≤ (advance st1).size :=
                  consume_ok_size_le "ASSIGN" (advance st1) st3 hcon3
                cases hexp : expression st3 with
                | error e =>
                  simp only []
                  exact ⟨error_propagates (err_ne_fuelout _ (expression_ne_fuelout _) e hexp),
                    fun r st2 h => by simp at h, fun t0 r st2 hcur h => by simp at h⟩
                | ok p =>
                  obtain ⟨ex1, st4⟩ := p
                  simp only []
                  have hlt4 : st4.size < st3.size := expression_ok_size_lt st3 ex1 st4 hexp
                  cases hcon5 : consume "TO" st4 with
                  | error e =>
                    simp only []
                    exact ⟨error_propagates (err_ne_fuelout _ (consume_ne_fuelout _ _) e hcon5),
                      fun r st2 h => by simp at h, fun t0 r st2 hcur h => by simp at h⟩
                  | ok st5 =>
                    simp only []
                    have hle5 : st5.size ≤ st4.size := consume_ok_size_le "TO" st4 st5 hcon5
                    cases hc5 : st5.current with
                    | none =>
                      simp only []
                      exact ⟨error_propagates (by simp), fun r st2 h => by simp at h,
                             fun t0 r st2 hcur h => by simp at h⟩
                    | some endTok =>
                      simp only []
                      cases hexp2 : expression st5 with
                      | error e =>
                        simp only []
                        exact ⟨error_propagates
                            (err_ne_fuelout _ (expression_ne_fuelout _) e hexp2),
                          fun r st2 h => by simp at h, fun t0 r st2 hcur h => by simp at h⟩
                      | ok q =>
                        obtain ⟨ex2, st6⟩ := q
                        simp only []
                        have hlt6 : st6.size < st5.size :=
                          expression_ok_size_lt st5 ex2 st6 hexp2
                        cases hsl : statement_list f st6 with
                        | error e =>
                          simp only []
                          refine ⟨error_propagates (err_ne_fuelout _ ?_ e hsl),
                            fun r st2 h => by simp at h, fun t0 r st2 hcur h => by simp at h⟩
                          exact (ihSL st6 (by omega)).1
                        | ok q2 =>
                          obtain ⟨stmts, st7⟩ := q2
                          simp only []
                          have hle7 : st7.size ≤ st6.size :=
                            (ihSL st6 (by omega)).2 stmts st7 hsl
                          cases hcon8 : consume "END" st7 with
                          | error e =>
                            simp only []
                            exact ⟨error_propagates
                                (err_ne_fuelout _ (consume_ne_fuelout _ _) e hcon8),
                              fun r st2 h => by simp at h, fun t0 r st2 hcur h => by simp at h⟩
                          | ok st8 =>
                            simp only []
                            have hle8 : st8.size ≤ st7.size :=
                              consume_ok_size_le "END" st7 st8 hcon8
                            refine ⟨ok_ne_fuelout _, fun r st2 h => by
                                rw [ok_state_eq _ _ r st2 h]; omega,
                              fun t0 r st2 hcur h => by
                                rw [ok_state_eq _ _ r st2 h]; omega⟩
            · rw [if_neg ht]
              refine ⟨ok_ne_fuelout _, fun r st2 h => ?_, fun t0 r st2 hcur h => ?_⟩
              · rw [ok_state_eq _ _ r st2 h]
                rw [← hc1]
                omega
              · rw [ok_state_eq _ _ r st2 h]
                rw [← hc1]
                have := hlt1 t0 hcur
                omega
    have hST : ∀ st t, st.panic = false → st.current = some t →
        t.type ∈ statementStarters → 3 * st.size + 3 ≤ f + 1 →
        statement (f + 1) st ≠ .error .fuelout ∧
        ∀ r st2, statement (f + 1) st = .ok (r, st2) → st2.size < st.size := by
      intro st t hp hc hstart hreq
      simp only [statement]
      rw [if_neg (by rw [hp]; exact Bool.false_ne_true)]
      rw [hc]
      simp only []
      by_cases h1 : t.type = "PRINT"
      · rw [if_pos h1]
        cases hcon : consume "PRINT" st with
        | error e =>
          simp only []
          exact ⟨error_propagates (err_ne_fuelout _ (consume_ne_fuelout _ _) e hcon),
                 fun r st2 h => by simp at h⟩
        | ok st1 =>
          simp only []
          have hlt1 : st1.size < st.size := consume_ok_size_lt "PRINT" st t st1 hc hcon
          cases hcon2 : consume "STRING_LITERAL" st1 with
          | error e =>
            simp only []
            exact ⟨error_propagates (err_ne_fuelout _ (consume_ne_fuelout _ _) e hcon2),
                   fun r st2 h => by simp at h⟩
          | ok st2x =>
            simp only []
            have hle2 : st2x.size ≤ st1.size := consume_ok_size_le "STRING_LITERAL" st1 st2x hcon2
            exact ⟨ok_ne_fuelout _, fun r st2 h => by rw [ok_state_eq _ _ r st2 h]; omega⟩
      · rw [if_neg h1]
        by_cases h2 : t.type = "INTEGER" ∨ t.type = "REAL" ∨ t.type = "STRING"
        · rw [if_pos h2]
          cases hvd : var_declaration f st with
          | error e =>
            simp only []
            refine ⟨error_propagates (err_ne_fuelout _ ?_ e hvd), fun r st2 h => by simp at h⟩
            exact (ihVD st (by omega)).1
          | ok p =>
            obtain ⟨vd, st1⟩ := p
            simp only []
            have hlt := (ihVD st (by omega)).2 vd st1 hvd
            exact ⟨ok_ne_fuelout _, fun r st2 h => by rw [ok_state_eq _ _ r st2 h]; exact hlt⟩
        · rw [if_neg h2]
          by_cases h3 : t.type = "ID"
          · rw [if_pos h3]
            cases hasg : assignment f st with
            | error e =>
              simp only []
              refine ⟨error_propagates (err_ne_fuelout _ ?_ e hasg), fun r st2 h => by simp at h⟩
              exact (ihASG st (by omega)).1
            | ok p =>
              obtain ⟨asg, st1⟩ := p
              simp only []
              have hlt := (ihASG st (by omega)).2.2 t asg st1 hp hc h3 hasg
              exact ⟨ok_ne_fuelout _, fun r st2 h => by rw [ok_state_eq _ _ r st2 h]; exact hlt⟩
          · rw [if_neg h3]
            by_cases h4 : t.type = "FOR"
            · rw [if_pos h4]
              cases hfl : for_loop f st with
              | error e =>
                simp only []
                refine ⟨error_propagates (err_ne_fuelout _ ?_ e hfl), fun r st2 h => by simp at h⟩
                exact (ihFL st (by omega)).1
              | ok p =>
                obtain ⟨⟨fl, sv, ev⟩, st1⟩ := p
                simp only []
                have hlt := (ihFL st (by omega)).2.2 t (fl, sv, ev) st1 hc hfl
                exact ⟨ok_ne_fuelout _, fun r st2 h => by rw [ok_state_eq _ _ r st2 h]; exact hlt⟩
            · rw [if_neg h4]
              exact ⟨error_propagates (by simp), fun r st2 h => by simp at h⟩
    exact ⟨hSLL, hSL, hST, hVD, hVDL, hASG, hASGL, hFL⟩

theorem program_no_fuelout (f : Nat) (st : PState) (hreq : 3 * st.size + 6 ≤ f) :
    program f st ≠ .error .fuelout := by
  cases f with
  | zero => omega
  | succ f =>
    simp only [program]
    cases hcon : consume "BEGIN" st with
    | error e =>
      simp only []
      exact error_propagates (err_ne_fuelout _ (consume_ne_fuelout _ _) e hcon)
    | ok st1 =>
      simp only []
      have hle1 : st1.size ≤ st.size := consume_ok_size_le "BEGIN" st st1 hcon
      cases hsl : statement_list f st1 with
      | error e =>
        simp only []
        refine error_propagates (err_ne_fuelout _ ?_ e hsl)
        exact ((parser_fuel f).2.1 st1 (by omega)).1
      | ok p =>
        obtain ⟨stmts, st2⟩ := p
        simp only []
        cases hc3 : (skipWhileNotIn ["END", "BEGIN"] st2.current st2.rest).1 with
        | none => simp
        | some t =>
          simp only []
          by_cases ht : t.type = "END"
          · rw [if_pos ht]
            cases hcon2 : consume "END" (PState.mk (some t)
                (skipWhileNotIn ["END", "BEGIN"] st2.current st2.rest).2 st2.panic) with
            | error e =>
              simp only []
              exact error_propagates (err_ne_fuelout _ (consume_ne_fuelout _ _) e hcon2)
            | ok st4 => simp
          · rw [if_neg ht]
            simp

/-- C2: For every finite token sequence, `parse()` terminates: every call to
`consume` while the parser is in Panic mode with a token under the cursor
strictly decreases the number of unread tokens, and with the fuel
`parse` supplies (linear in the input length) no parsing loop ever runs
out of fuel — every loop either advances the cursor or exits, so the
whole recursion finishes with a result (a tree or a raised error). -/
theorem C2_parse_terminates :
    (∀ e st t, st.panic = true → st.current = some t →
      ∃ st2, consume e st = .ok st2 ∧ st2.size < st.size) ∧
    (∀ tokens, parse tokens ≠ .error .fuelout) := by
  constructor
  · intro e st t hp hc
    exact ⟨_, consume_panic_eq e st hp,
      consume_ok_size_lt e st t _ hc (consume_panic_eq e st hp)⟩
  · intro tokens
    cases tokens with
    | nil => simp [parse, parseFuel]
    | cons t ts =>
      simp only [parse, parseFuel]
      refine program_no_fuelout _ _ ?_
      have hsz : (PState.mk (some t) ts false).size = 1 + ts.length := by
        simp [PState.size]
      rw [hsz]
      simp only [List.length_cons]
      omega

/-- Witness for C2 at concrete inputs: a panic-mode `consume` on a concrete
state makes progress, and a concrete parse does not exhaust its fuel. -/
theorem C2_witness :
    (∃ st2, consume "END" (PState.mk (some ⟨"PRINT", "PRINT", 1, 1⟩) [] true) = .ok st2 ∧
      st2.size < (PState.mk (some ⟨"PRINT", "PRINT", 1, 1⟩) [] true).size) ∧
    parse (lexer "BEGIN END") ≠ .error .fuelout :=
  ⟨C2_parse_terminates.1 "END" (PState.mk (some ⟨"PRINT", "PRINT", 1, 1⟩) [] true)
      ⟨"PRINT", "PRINT", 1, 1⟩ rfl rfl,
   C2_parse_terminates.2 (lexer "BEGIN END")⟩

theorem statement_list_shape (f : Nat) (st : PState) (r : PTree) (st2 : PState)
    (h : statement_list f st = .ok (r, st2)) :
    ∃ cs, r = PTree.node "Statements" cs none := by
  cases f with
  | zero => cases h
  | succ f =>
    simp only [statement_list] at h
    cases hloop : statement_list_loop f [] st with
    | error e => rw [hloop] at h; cases h
    | ok p =>
      obtain ⟨cs, st1⟩ := p
      rw [hloop] at h
      simp only [Except.ok.injEq, Prod.mk.injEq] at h
      exact ⟨cs, h.1.symm⟩

theorem program_shape (f : Nat) (st : PState) (r : PTree) (st2 : PState)
    (h : program f st = .ok (r, st2)) :
    ∃ cs, r = PTree.node "Program" [PTree.node "Statements" cs none] none := by
  cases f with
  | zero => cases h
  | succ f =>
    simp only [program] at h
    cases hcon : consume "BEGIN" st with
    | error e => rw [hcon] at h; cases h
    | ok st1 =>
      rw [hcon] at h
      simp only [] at h
      cases hsl : statement_list f st1 with
      | error e => rw [hsl] at h; cases h
      | ok p =>
        obtain ⟨stmts, st2x⟩ := p
        rw [hsl] at h
        simp only [] at h
        obtain ⟨cs, hcs⟩ := statement_list_shape f st1 stmts st2x hsl
        subst hcs
        cases hc3 : (skipWhileNotIn ["END", "BEGIN"] st2x.current st2x.rest).1 with
        | none =>
          rw [hc3] at h
          simp only [Except.ok.injEq, Prod.mk.injEq] at h
          exact ⟨cs, h.1.symm⟩
        | some t =>
          rw [hc3] at h
          simp only [] at h
          by_cases ht : t.type = "END"
          · rw [if_pos ht] at h
            cases hcon2 : consume "END" (PState.mk (some t)
                (skipWhileNotIn ["END", "BEGIN"] st2x.current st2x.rest).2 st2x.panic) with
            | error e => rw [hcon2] at h; cases h
            | ok st4 =>
              rw [hcon2] at h
              simp only [Except.ok.injEq, Prod.mk.injEq] at h
              exact ⟨cs, h.1.symm⟩
          · rw [if_neg ht] at h
            simp only [Except.ok.injEq, Prod.mk.injEq] at h
            exact ⟨cs, h.1.symm⟩

/-- C6: every parse that returns normally yields a root `Program` node with
exactly one child, and that child is a `Statements` node. -/
theorem C6_program_one_statements_child : ∀ tokens r st2, parse tokens = .ok (r, st2) →
    ∃ cs, r = PTree.node "Program" [PTree.node "Statements" cs none] none := by
  intro tokens r st2 h
  cases tokens with
  | nil => cases h
  | cons t ts =>
    simp only [parse, parseFuel] at h
    exact program_shape _ _ r st2 h

/-- Witness for C6: the concrete program `BEGIN END` parses to a `Program`
node whose only child is a `Statements` node. -/
theorem C6_witness :
    ∃ cs, (PTree.node "Program" [PTree.node "Statements" [] none] none) =
      PTree.node "Program" [PTree.node "Statements" cs none] none :=
  C6_program_one_statements_child (lexer "BEGIN END")
    (PTree.node "Program" [PTree.node "Statements" [] none] none)
    (PState.mk none [] false) rfl

/-- C3 counterexample: the spec says that when the input is exhausted during a
panic-mode skip, the mode transitions back to Normal.  In the code it does not:
a panic-mode `consume "END"` that runs off the end of the stream returns a
state whose panic flag is still `true`.  This state is reachable from a full
parse: `BEGIN FOR I := 1 TO 5 PRINT PRINT` returns a tree whose final parser
state still has the panic flag set. -/
theorem C3_counterexample :
    consume "END" (PState.mk (some ⟨"PRINT", "PRINT", 1, 1⟩) [] true) =
      .ok (PState.mk none [] true) ∧
    (PState.mk none [] true).panic = true ∧
    (parse (lexer "BEGIN FOR I := 1 TO 5 PRINT PRINT")).toOption.map
      (fun p => p.2.panic) = some true :=
  ⟨rfl, rfl, rfl⟩

/-- C3 amended: panic-mode `consume(expected)` skips tokens and always
succeeds, and the mode is cleared back to Normal exactly when a token of the
expected kind occurs in the unread stream; if the stream is exhausted without
finding it, panic mode remains set. -/
theorem C3_panic_consume_amended (e : String) (st : PState) (hp : st.panic = true) :
    ∃ st2, consume e st = .ok st2 ∧
      (st2.panic = false ↔
        st.current.isSome = true ∧ e ∈ (st.current.toList ++ st.rest).map Token.type) := by
  refine ⟨_, consume_panic_eq e st hp, ?_⟩
  simp only [advance]
  rw [Bool.not_eq_false']
  exact skipWhileNot_found_iff e st.rest st.current

/-- Witness for the amended C3 at a concrete panic state: skipping for `END`
from a lone `PRINT` token exhausts the stream and leaves panic mode set. -/
theorem C3_amended_witness :
    ∃ st2, consume "END" (PState.mk (some ⟨"FOR", "FOR", 1, 1⟩) [] true) = .ok st2 ∧
      (st2.panic = false ↔
        (PState.mk (some ⟨"FOR", "FOR", 1, 1⟩) ([] : List Token) true).current.isSome = true ∧
          "END" ∈ ((PState.mk (some ⟨"FOR", "FOR", 1, 1⟩) ([] : List Token) true).current.toList ++
            (PState.mk (some ⟨"FOR", "FOR", 1, 1⟩) ([] : List Token) true).rest).map Token.type) :=
  C3_panic_consume_amended "END" (PState.mk (some ⟨"FOR", "FOR", 1, 1⟩) [] true) rfl

/-- C4 counterexample: after the top-level `END` is consumed, the trailing
`INTEGER` token is not reported at all — `parse` returns the finished AST
with the unexamined trailing token left in the final state, instead of
raising an error. -/
theorem C4_counterexample :
    parse (lexer "BEGIN PRINT \x22HI\x22 END INTEGER") =
      .ok (PTree.node "Program"
            [PTree.node "Statements"
              [PTree.node "PrintStatement"
                [PTree.node "StringLiteral"
                  [PTree.node "Value"
                    [PTree.tok ⟨"STRING_LITERAL", "\x22HI\x22", 5, 1⟩] none] none] none] none]
            none,
           PState.mk (some ⟨"INTEGER", "INTEGER", 9, 1⟩) [] false) := by
  rfl

theorem skipWhileNotIn_immediate (stop : List String) (t : Token) (h : t.type ∈ stop) :
    ∀ rest, skipWhileNotIn stop (some t) rest = (some t, rest) := by
  intro rest
  cases rest with
  | nil => simp [skipWhileNotIn, h]
  | cons r rs => simp [skipWhileNotIn, h]

/-- C4 amended: whatever token list follows the top-level `END` of a
well-formed program, `parse` succeeds with the same AST and simply leaves
the trailing tokens unexamined in the final parser state. -/
theorem C4_trailing_tokens_ignored (extra : List Token) :
    parse ([⟨"BEGIN", "BEGIN", 1, 1⟩, ⟨"PRINT", "PRINT", 3, 1⟩,
            ⟨"STRING_LITERAL", "\x22HI\x22", 5, 1⟩, ⟨"END", "END", 7, 1⟩] ++ extra) =
      .ok (PTree.node "Program"
            [PTree.node "Statements"
              [PTree.node "PrintStatement"
                [PTree.node "StringLiteral"
                  [PTree.node "Value"
                    [PTree.tok ⟨"STRING_LITERAL", "\x22HI\x22", 5, 1⟩] none] none] none] none]
            none,
           PState.mk extra.head? extra.tail false) := by
  simp only [parse, List.cons_append, List.nil_append, parseFuel, List.length_cons]
  rw [show 3 * (extra.length + 1 + 1 + 1 + 1) + 7 =
      Nat.succ (Nat.succ (Nat.succ (Nat.succ (3 * extra.length + 15)))) from by omega]
  simp only [program, statement_list, statement_list_loop, statement]
  simp +decide [consume, advance, optTok, statementStarters,
    skipWhileNotIn_immediate, skipWhileNot]

theorem spanC_all_append (p : Char → Bool) (q : Char) (hq : p q = false) :
    ∀ body, (∀ c ∈ body, p c = true) → ∀ rest,
      spanC p (body ++ q :: rest) = (body, q :: rest) := by
  intro body
  induction body with
  | nil => intro _ rest; simp [spanC, List.takeWhile, List.dropWhile, hq]
  | cons c cs ih =>
    intro hb rest
    have hc : p c = true := hb c (List.mem_cons_self c cs)
    have hcs : ∀ d ∈ cs, p d = true := fun d hd => hb d (List.mem_cons_of_mem c hd)
    simp only [List.cons_append, spanC, List.takeWhile_cons, List.dropWhile_cons, hc]
    have h2 := ih hcs rest
    simp only [spanC, Prod.mk.injEq] at h2
    simp [h2.1, h2.2]

/-- C5 counterexample: the lexed string-literal token of
`BEGIN PRINT "HI" END` stores its text WITH the delimiting double quotes —
the `Value` leaf of the resulting `PrintStatement` carries `"HI"` (five
characters? no: four characters, quotes included), not the bare `HI`. -/
theorem C5_counterexample :
    parse (lexer "BEGIN PRINT \x22HI\x22 END") =
      .ok (PTree.node "Program"
            [PTree.node "Statements"
              [PTree.node "PrintStatement"
                [PTree.node "StringLiteral"
                  [PTree.node "Value"
                    [PTree.tok ⟨"STRING_LITERAL", "\x22HI\x22", 5, 1⟩] none] none] none] none]
            none,
           PState.mk none [] false) ∧
    "\x22HI\x22" ≠ "HI" :=
  ⟨rfl, by decide⟩

/-- C5 amended: the `STRING_LITERAL` matcher (`\x22[^\x22]*\x22`) stores the
matched text INCLUDING both delimiting quotes: matching a quoted body yields
the token text `\x22 :: body ++ [\x22]`. -/
theorem C5_string_literal_includes_quotes (body rest : List Char)
    (hb : ∀ c ∈ body, ¬(c = '\x22')) :
    matchStringLit ('\x22' :: (body ++ '\x22' :: rest)) =
      some ('\x22' :: body ++ ['\x22'], rest) := by
  simp only [matchStringLit, if_pos rfl]
  have hq : (fun d => !(d = '\x22')) '\x22' = false := by simp
  have hbody : ∀ c ∈ body, (fun d => !(d = '\x22')) c = true := by
    intro c hc
    simp [hb c hc]
  rw [spanC_all_append _ _ hq body hbody rest]
  simp

/-- Witness for the amended C5 at the concrete literal `\x22HI\x22`. -/
theorem C5_amended_witness :
    matchStringLit ('\x22' :: (['H', 'I'] ++ '\x22' :: [])) =
      some ('\x22' :: ['H', 'I'] ++ ['\x22'], []) :=
  C5_string_literal_includes_quotes ['H', 'I'] [] (by decide)

theorem stripLit_nil_eq (cs : List Char) : stripLit [] cs = some cs := by
  cases cs <;> rfl

/-- C7: at every source position where a keyword literal matches (and hence
the generic identifier pattern also matches, since every keyword is made of
letters), the combined matcher list tries the keyword first and wins the
tie: the emitted match is the keyword, even when the identifier pattern
would match the same or a longer prefix. -/
theorem C7_keywords_beat_identifier :
    ∀ kw ∈ ["BEGIN", "END", "PRINT", "FOR", "TO", "INTEGER", "REAL", "STRING"],
    ∀ cs rest : List Char, stripLit kw.data cs = some rest →
      tryMatchers tokenMatchers cs = some (kw, kw.data, rest) ∧
      (matchID cs).isSome = true := by
  intro kw hkw cs rest hstrip
  have hcs := stripLit_append kw.data cs rest hstrip
  subst hcs
  fin_cases hkw
  · refine ⟨?_, rfl⟩
    show tryMatchers tokenMatchers ('B' :: 'E' :: 'G' :: 'I' :: 'N' :: rest) = _
    simp +decide [tryMatchers, tokenMatchers, matchLit, stripLit, stripLit_nil_eq]
  · refine ⟨?_, rfl⟩
    show tryMatchers tokenMatchers ('E' :: 'N' :: 'D' :: rest) = _
    simp +decide [tryMatchers, tokenMatchers, matchLit, stripLit, stripLit_nil_eq]
  · refine ⟨?_, rfl⟩
    show tryMatchers tokenMatchers ('P' :: 'R' :: 'I' :: 'N' :: 'T' :: rest) = _
    simp +decide [tryMatchers, tokenMatchers, matchLit, stripLit, stripLit_nil_eq]
  · refine ⟨?_, rfl⟩
    show tryMatchers tokenMatchers ('F' :: 'O' :: 'R' :: rest) = _
    simp +decide [tryMatchers, tokenMatchers, matchLit, stripLit, stripLit_nil_eq]
  · refine ⟨?_, rfl⟩
    show tryMatchers tokenMatchers ('T' :: 'O' :: rest) = _
    simp +decide [tryMatchers, tokenMatchers, matchLit, stripLit, stripLit_nil_eq]
  · refine ⟨?_, rfl⟩
    show tryMatchers tokenMatchers ('I' :: 'N' :: 'T' :: 'E' :: 'G' :: 'E' :: 'R' :: rest) = _
    simp +decide [tryMatchers, tokenMatchers, matchLit, stripLit, stripLit_nil_eq]
  · refine ⟨?_, rfl⟩
    show tryMatchers tokenMatchers ('R' :: 'E' :: 'A' :: 'L' :: rest) = _
    simp +decide [tryMatchers, tokenMatchers, matchLit, stripLit, stripLit_nil_eq]
  · refine ⟨?_, rfl⟩
    show tryMatchers tokenMatchers ('S' :: 'T' :: 'R' :: 'I' :: 'N' :: 'G' :: rest) = _
    simp +decide [tryMatchers, tokenMatchers, matchLit, stripLit, stripLit_nil_eq]

/-- Witness for C7: on input `TOTAL` the keyword `TO` matches a prefix, the
identifier pattern also matches (it would match all of `TOTAL`), and the
matcher list emits the keyword `TO`. -/
theorem C7_witness :
    tryMatchers tokenMatchers "TOTAL".data = some ("TO", "TO".data, "TAL".data) ∧
    (matchID "TOTAL".data).isSome = true :=
  C7_keywords_beat_identifier "TO" (by decide) "TOTAL".data "TAL".data (by decide)

/-- C10: whenever the token sequence of the input is empty (e.g. an empty or
whitespace-only source), `parse` raises `StopIteration` from its initial
pull on the lexer — it neither returns a tree nor raises the parser's
`SyntaxError`. -/
theorem C10_empty_input_stop_iteration (s : String) (h : lexer s = []) :
    parse (lexer s) = .error .stopIter := by
  rw [h]
  rfl

/-- Witness for C10 at the whitespace-only source `" "`, whose token
sequence is empty. -/
theorem C10_witness : parse (lexer " ") = .error .stopIter :=
  C10_empty_input_stop_iteration " " rfl

theorem lexGo_enum : ∀ fuel cs n, lexGo fuel cs n 1 =
    (List.enumFrom n (matGo fuel cs)).filterMap
      (fun p => if p.2.1 ≠ "WHITESPACE" then some ⟨p.2.1, p.2.2, p.1, 1⟩ else none) := by
  intro fuel
  induction fuel with
  | zero => intro cs n; simp [lexGo, matGo]
  | succ f ih =>
    intro cs n
    simp only [lexGo, matGo]
    cases hm : tryMatchers tokenMatchers cs with
    | some p =>
      obtain ⟨name, txt, rest⟩ := p
      simp only []
      rw [ih rest (n + 1)]
      simp only [List.enumFrom_cons, List.filterMap_cons]
      by_cases hws : name = "WHITESPACE"
      · simp [hws]
      · simp [hws]
    | none =>
      cases cs with
      | nil => simp
      | cons c cs2 => simpa using ih cs2 n

/-- C8 counterexample: the source `A B` contains no newline, so under the
claimed semantics both tokens would carry line 1, and `B` (the third source
column) would carry column 3.  The lexer instead reports line 3 for `B`
(the line counter is incremented once per `finditer` match, the whitespace
run between `A` and `B` included) and column 1 for every token. -/
theorem C8_counterexample :
    lexer "A B" = [⟨"ID", "A", 1, 1⟩, ⟨"ID", "B", 3, 1⟩] ∧
    (∀ c ∈ "A B".data, ¬(c = '\n')) :=
  ⟨rfl, by decide⟩

/-- C8 amended: the positions actually recorded are: a token whose
`finditer` match is the n-th match of the combined pattern (0-based,
counting whitespace matches too) carries `line_number = 1 + n`, and every
token carries `column = 1` — the line counter advances once per match, not
once per source newline, and the column is never updated. -/
theorem C8_line_once_per_match_column_one (s : String) :
    lexer s = (List.enumFrom 1 (lexMatches s.data)).filterMap
      (fun p => if p.2.1 ≠ "WHITESPACE" then some ⟨p.2.1, p.2.2, p.1, 1⟩ else none) := by
  simpa [lexer, lexMatches] using lexGo_enum s.data.length s.data 1

theorem declChain_length (ns : List String) : (declChain ns).length = 2 * ns.length := by
  induction ns with
  | nil => rfl
  | cons nm ns ih =>
    simp [declChain, ih]
    omega

theorem vdLoop_run (ty : String) : ∀ (ns : List String) (fuel : Nat) (acc : List PTree),
    var_decl_loop (Nat.succ (ns.length + fuel)) ty acc
      (PState.mk (declChain ns ++ [(⟨"END", "END", 1, 1⟩ : Token)]).head?
                 (declChain ns ++ [(⟨"END", "END", 1, 1⟩ : Token)]).tail false) =
      .ok (acc ++ ns.map (fun nm => PTree.node ty [] (some nm)),
           PState.mk (some ⟨"END", "END", 1, 1⟩) [] false) := by
  intro ns
  induction ns with
  | nil =>
    intro fuel acc
    simp +decide [declChain, var_decl_loop]
  | cons nm ns' ih =>
    intro fuel acc
    simp only [declChain, List.cons_append, List.head?_cons, List.tail_cons]
    simp only [var_decl_loop]
    simp +decide [consume, advance, -List.head?_append]
    rw [show ns'.length + 1 + fuel = Nat.succ (ns'.length + fuel) from by omega]
    rw [ih fuel (acc ++ [PTree.node ty [] (some nm)])]
    simp

set_option maxHeartbeats 1600000 in
/-- C9: parsing `BEGIN <type> n0, n1, ..., nk END` for any declared type
(`INTEGER`, `REAL` or `STRING`) and any nonempty COMMA-separated name list
succeeds and produces a `VarDeclaration` node whose children are exactly one
leaf per declared name, each leaf tagged with the declared type and carrying
the name as its value (the `statement` production wraps that node in an
outer single-child `VarDeclaration` node). -/
theorem C9_comma_declaration (ty : String)
    (hty : ty = "INTEGER" ∨ ty = "REAL" ∨ ty = "STRING")
    (n0 : String) (ns : List String) :
    parse (declTokens ty n0 ns) =
      .ok (PTree.node "Program"
            [PTree.node "Statements"
              [PTree.node "VarDeclaration"
                [PTree.node "VarDeclaration"
                  ((n0 :: ns).map (fun nm => PTree.node ty [] (some nm))) none] none] none] none,
           PState.mk none [] false) := by
  have hfuel : 3 * (declTokens ty n0 ns).length + 7 =
      Nat.succ (Nat.succ (Nat.succ (Nat.succ (Nat.succ (Nat.succ
        (ns.length + (5 * ns.length + 13))))))) := by
    simp [declTokens, declChain_length]
    omega
  simp only [parse, hfuel, declTokens, parseFuel]
  rcases hty with h | h | h <;> subst h
  · simp only [program, statement_list, statement_list_loop, statement, var_declaration]
    simp +decide [consume, advance, statementStarters, -List.head?_append]
    rw [show 3 * ((declChain ns).length + 1 + 1 + 1 + 1) + 2 =
        Nat.succ (ns.length + (5 * ns.length + 13)) from by rw [declChain_length]; omega]
    rw [vdLoop_run "INTEGER" ns (5 * ns.length + 13) [PTree.node "INTEGER" [] (some n0)]]
    simp +decide [consume, advance, skipWhileNotIn, statementStarters]
  · simp only [program, statement_list, statement_list_loop, statement, var_declaration]
    simp +decide [consume, advance, statementStarters, -List.head?_append]
    rw [show 3 * ((declChain ns).length + 1 + 1 + 1 + 1) + 2 =
        Nat.succ (ns.length + (5 * ns.length + 13)) from by rw [declChain_length]; omega]
    rw [vdLoop_run "REAL" ns (5 * ns.length + 13) [PTree.node "REAL" [] (some n0)]]
    simp +decide [consume, advance, skipWhileNotIn, statementStarters]
  · simp only [program, statement_list, statement_list_loop, statement, var_declaration]
    simp +decide [consume, advance, statementStarters, -List.head?_append]
    rw [show 3 * ((declChain ns).length + 1 + 1 + 1 + 1) + 2 =
        Nat.succ (ns.length + (5 * ns.length + 13)) from by rw [declChain_length]; omega]
    rw [vdLoop_run "STRING" ns (5 * ns.length + 13) [PTree.node "STRING" [] (some n0)]]
    simp +decide [consume, advance, skipWhileNotIn, statementStarters]

/-- Witness for C9: `BEGIN INTEGER A, B END` (as tokens) yields the
double-wrapped `VarDeclaration` whose inner node has the two `INTEGER`
leaves valued `A` and `B`. -/
theorem C9_witness :
    parse (declTokens "INTEGER" "A" ["B"]) =
      .ok (PTree.node "Program"
            [PTree.node "Statements"
              [PTree.node "VarDeclaration"
                [PTree.node "VarDeclaration"
                  ((("A" : String) :: ["B"]).map
                    (fun nm => PTree.node "INTEGER" [] (some nm))) none] none] none] none,
           PState.mk none [] false) :=
  C9_comma_declaration "INTEGER" (Or.inl rfl) "A" ["B"]

theorem tryMatchers_name_mem :
    ∀ (ms : List (String × (List Char → Option (List Char × List Char)))) (cs : List Char)
      (name : String) (txt rest : List Char),
      tryMatchers ms cs = some (name, txt, rest) → name ∈ ms.map Prod.fst := by
  intro ms
  induction ms with
  | nil => intro cs name txt rest h; simp [tryMatchers] at h
  | cons m ms ih =>
    intro cs name txt rest h
    obtain ⟨n, f⟩ := m
    simp only [tryMatchers] at h
    cases hf : f cs with
    | some p =>
      obtain ⟨txt0, rest0⟩ := p
      rw [hf] at h
      simp only [Option.some.injEq, Prod.mk.injEq] at h
      simp [h.1.symm]
    | none =>
      rw [hf] at h
      simp only [List.map_cons, List.mem_cons]
      exact Or.inr (ih cs name txt rest h)

theorem lexGo_type_mem : ∀ (fuel : Nat) (cs : List Char) (line col : Nat) (t : Token),
    t ∈ lexGo fuel cs line col → t.type ∈ tokenMatchers.map Prod.fst := by
  intro fuel
  induction fuel with
  | zero => intro cs line col t h; simp [lexGo] at h
  | succ f ih =>
    intro cs line col t h
    simp only [lexGo] at h
    cases hm : tryMatchers tokenMatchers cs with
    | some p =>
      obtain ⟨name, txt, rest⟩ := p
      rw [hm] at h
      simp only [List.mem_append] at h
      cases h with
      | inl h1 =>
        by_cases hws : name = "WHITESPACE"
        · simp [hws] at h1
        · simp [hws] at h1
          rw [h1]
          exact tryMatchers_name_mem tokenMatchers cs name txt rest hm
      | inr h2 => exact ih rest (line + 1) 1 t h2
    | none =>
      rw [hm] at h
      cases cs with
      | nil => simp at h
      | cons c cs2 => exact ih cs2 line col t h

theorem lexer_no_op_types (s : String) (t : Token) (h : t ∈ lexer s) :
    t.type ∉ opChars := by
  intro hop
  have hmem := lexGo_type_mem s.data.length s.data 1 1 t h
  simp [opChars] at hop
  rcases hop with h1 | h1 | h1 | h1 <;> rw [h1] at hmem <;> simp [tokenMatchers] at hmem

theorem expression_eq_term (st : PState)
    (h : ∀ tok ∈ pstream st, tok.type ∉ opChars) :
    expression st = term st := by
  cases hterm : term st with
  | error e => simp [expression, hterm]
  | ok p =>
    obtain ⟨leftTerm, st1⟩ := p
    have hst := term_ok_state st leftTerm st1 hterm
    simp only [expression, hterm]
    cases hc : st1.current with
    | none => rfl
    | some t =>
      have htmem : t ∈ st.rest := by
        have hh : st.rest.head? = some t := by rw [← hst.1, hc]
        cases hr : st.rest with
        | nil => rw [hr] at hh; cases hh
        | cons a l =>
          rw [hr] at hh
          simp only [List.head?_cons, Option.some.injEq] at hh
          rw [← hh]
          exact List.mem_cons_self a l
      have hop : t.type ∉ opChars := by
        refine h t ?_
        unfold pstream
        exact List.mem_append_right _ htmem
      simp only []
      rw [if_neg (fun hcontra => hop hcontra.2)]

/-- C1 counterexample: parsing the tokens of `BEGIN A := 1 + 2 * 3 END`
does NOT produce a leaf valued `"1 + 2 * 3"`: the loop guard of
`expression` compares the token type (`'OPERATOR'`) against the characters
`'+' '-' '*' '/'`, so the fold never runs.  The assignment keeps only the
first term (`1`); the remaining `+ 2 * 3` tokens are silently discarded by
the recovery skip before `END`, and no node or token anywhere in the
resulting tree carries the value `"1 + 2 * 3"`. -/
theorem C1_counterexample :
    parse (lexer "BEGIN A := 1 + 2 * 3 END") =
      .ok (PTree.node "Program"
            [PTree.node "Statements"
              [PTree.node "Assignment"
                [PTree.node "Assignments"
                  [PTree.node "Assignment"
                    [PTree.node "Variable" [] (some "A"),
                     PTree.node "Value" [PTree.tok ⟨"INT", "1", 7, 1⟩] none,
                     PTree.node "Value" [PTree.tok ⟨"ID", "A", 3, 1⟩] none] none] none] none]
              none] none,
           PState.mk none [] false) ∧
    hasValueS "1 + 2 * 3"
      (PTree.node "Program"
        [PTree.node "Statements"
          [PTree.node "Assignment"
            [PTree.node "Assignments"
              [PTree.node "Assignment"
                [PTree.node "Variable" [] (some "A"),
                 PTree.node "Value" [PTree.tok ⟨"INT", "1", 7, 1⟩] none,
                 PTree.node "Value" [PTree.tok ⟨"ID", "A", 3, 1⟩] none] none] none] none]
          none] none) = false :=
  ⟨rfl, rfl⟩

/-- C1 amended: the textual left-fold of `expression` is dead code.  The
lexer never emits a token whose type is one of the characters
`'+' '-' '*' '/'` (operator tokens have type `'OPERATOR'`), and on any
token stream free of such types `expression` returns exactly what `term`
returns — a single leaf for the first term, no fold. -/
theorem C1_expression_fold_dead :
    (∀ (s : String) (t : Token), t ∈ lexer s → t.type ∉ opChars) ∧
    (∀ st : PState, (∀ tok ∈ pstream st, tok.type ∉ opChars) →
      expression st = term st) :=
  ⟨lexer_no_op_types, expression_eq_term⟩

/-- Witness for the amended C1: the `OPERATOR` token of `1 + 2` does not
carry an operator-character type, and `expression` run right before an
`OPERATOR` token behaves exactly like `term`. -/
theorem C1_witness :
    ((⟨"OPERATOR", "+ ", 3, 1⟩ : Token).type ∉ opChars) ∧
    expression (PState.mk (some ⟨"INT", "1", 1, 1⟩) [⟨"OPERATOR", "+ ", 3, 1⟩] false) =
      term (PState.mk (some ⟨"INT", "1", 1, 1⟩) [⟨"OPERATOR", "+ ", 3, 1⟩] false) :=
  ⟨C1_expression_fold_dead.1 "1 + 2" ⟨"OPERATOR", "+ ", 3, 1⟩ (by decide),
   C1_expression_fold_dead.2
     (PState.mk (some ⟨"INT", "1", 1, 1⟩) [⟨"OPERATOR", "+ ", 3, 1⟩] false) (by decide)⟩
